import Mathlib

/-!
Verification of the kvs log-structured key-value store.

The development is a shallow embedding of the Rust sources:

* src/kvlog.rs — the KvLog record type and its bincode serialization.
  Bincode encodes an enum variant as a little-endian u32 tag followed by the
  fields; a byte string is encoded as a little-endian u64 length followed by
  the raw bytes.  Keys and values are modelled as byte strings (lists of
  naturals); the spec treats the concrete binary encoder as an external
  collaborator, requiring only a deterministic self-delimiting codec.
* src/error.rs — the declared ErrorKind enum (variants Io and Serde only).
* src/lib.rs — the KvStore facade: set, get, remove, open, the offset
  arithmetic spanning the flushed file and the unflushed write buffer, the
  redundancy counter and the compaction procedure.

Machine integers (u64 offsets and lengths) are modelled as Nat; the only
place where the width matters is the u64 length field of the codec, so the
well-formedness predicate bounds string lengths by 2 ^ 64.
-/

/-- Keys are byte strings, modelled as lists of naturals. -/
abbrev Key := List Nat

/-- Values are byte strings, modelled as lists of naturals. -/
abbrev Value := List Nat

/-- Definition of KvLog (src/kvlog.rs): the set command stores key and value,
the remove command stores the key. -/
inductive KvLog where
  | Set (key : Key) (value : Value)
  | Rm (key : Key)
  deriving DecidableEq

/-- Key projection of a record.  Models KvLog::key() as used by lib.rs
(kvlog.rs itself shows the same projection as into_key). -/
def KvLog.key : KvLog → Key
  | .Set k _ => k
  | .Rm k => k

/-- Little-endian fixed-width encoding of a natural, one byte per recursion
step; models how bincode lays out u32 and u64 integers. -/
def encFixLE : Nat → Nat → List Nat
  | 0, _ => []
  | w + 1, n => n % 256 :: encFixLE w (n / 256)

/-- Little-endian reconstruction of a natural from bytes. -/
def decFixLE : List Nat → Nat
  | [] => 0
  | b :: bs => b + 256 * decFixLE bs

/-- Encoding of a u32 (bincode enum tag). -/
def encU32 (n : Nat) : List Nat := encFixLE 4 n

/-- Encoding of a u64 (bincode string length). -/
def encU64 (n : Nat) : List Nat := encFixLE 8 n

/-- Encoding of a byte string: u64 length then the raw bytes. -/
def encBytes (s : List Nat) : List Nat := encU64 s.length ++ s

/-- Serialization of a record, models KvLog::serialize_to_writer writing
bincode: a u32 variant tag, then the length-prefixed fields. -/
def KvLog.encode : KvLog → List Nat
  | .Set k v => encU32 0 ++ encBytes k ++ encBytes v
  | .Rm k => encU32 1 ++ encBytes k

/-- Reading exactly n bytes from a stream; fails at end of stream. -/
def readN (n : Nat) (s : List Nat) : Option (List Nat × List Nat) :=
  if n ≤ s.length then some (s.take n, s.drop n) else none

/-- Decoding a u32 from the head of a stream. -/
def decU32 (s : List Nat) : Option (Nat × List Nat) :=
  (readN 4 s).map (fun p => (decFixLE p.1, p.2))

/-- Decoding a u64 from the head of a stream. -/
def decU64 (s : List Nat) : Option (Nat × List Nat) :=
  (readN 8 s).map (fun p => (decFixLE p.1, p.2))

/-- Decoding a length-prefixed byte string from the head of a stream. -/
def decBytes (s : List Nat) : Option (List Nat × List Nat) :=
  (decU64 s).bind fun p => readN p.1 p.2

/-- Deserialization of one record from the head of a stream, models
KvLog::deserialize_from_reader; returns the record and the remaining
stream, or none on a truncated or corrupt stream (ErrorKind::Serde). -/
def KvLog.decode (s : List Nat) : Option (KvLog × List Nat) :=
  (decU32 s).bind fun p =>
    if p.1 = 0 then
      (decBytes p.2).bind fun q =>
        (decBytes q.2).map fun w => (KvLog.Set q.1 w.1, w.2)
    else if p.1 = 1 then
      (decBytes p.2).map fun q => (KvLog.Rm q.1, q.2)
    else none

/-- Well-formedness of a record: the string lengths fit in the u64 length
field of the codec (true of every record a real process can build). -/
def KvLog.wf : KvLog → Prop
  | .Set k v => k.length < 2 ^ 64 ∧ v.length < 2 ^ 64
  | .Rm k => k.length < 2 ^ 64

instance : DecidablePred KvLog.wf := fun r =>
  match r with
  | .Set _ _ => inferInstanceAs (Decidable (_ ∧ _))
  | .Rm _ => inferInstanceAs (Decidable (_ < _))

/-- Well-formedness of a record sequence. -/
def wfAll (recs : List KvLog) : Prop := ∀ r ∈ recs, r.wf

instance : DecidablePred wfAll := fun recs =>
  inferInstanceAs (Decidable (∀ r ∈ recs, r.wf))

instance {ε α : Type} [DecidableEq ε] [DecidableEq α] : DecidableEq (Except ε α) :=
  fun x y =>
    match x, y with
    | .ok a, .ok b =>
      if h : a = b then .isTrue (by rw [h]) else .isFalse (fun hh => h (Except.ok.inj hh))
    | .error a, .error b =>
      if h : a = b then .isTrue (by rw [h]) else .isFalse (fun hh => h (Except.error.inj hh))
    | .ok _, .error _ => .isFalse (fun hh => Except.noConfusion hh)
    | .error _, .ok _ => .isFalse (fun hh => Except.noConfusion hh)

theorem encFixLE_length (w n : Nat) : (encFixLE w n).length = w := by
  induction w generalizing n with
  | zero => rfl
  | succ w ih => simp [encFixLE, ih]

theorem decFixLE_encFixLE (w n : Nat) : decFixLE (encFixLE w n) = n % 256 ^ w := by
  induction w generalizing n with
  | zero => simp [encFixLE, decFixLE, Nat.mod_one]
  | succ w ih =>
    simp only [encFixLE, decFixLE, ih]
    rw [pow_succ, mul_comm (256 ^ w) 256, Nat.mod_mul]

theorem readN_exact (xs rest : List Nat) : readN xs.length (xs ++ rest) = some (xs, rest) := by
  simp [readN]

theorem readN_of_length {n : Nat} (xs rest : List Nat) (h : xs.length = n) :
    readN n (xs ++ rest) = some (xs, rest) := by
  subst h; exact readN_exact xs rest

theorem decU32_encU32 (t : Nat) (rest : List Nat) (h : t < 2 ^ 32) :
    decU32 (encU32 t ++ rest) = some (t, rest) := by
  unfold decU32 encU32
  rw [readN_of_length _ _ (encFixLE_length 4 t)]
  have hlt : t < 4294967296 := (by norm_num : (2 : Nat) ^ 32 = 4294967296) ▸ h
  simp [decFixLE_encFixLE, Nat.mod_eq_of_lt hlt]

theorem decU64_encU64 (n : Nat) (rest : List Nat) (h : n < 2 ^ 64) :
    decU64 (encU64 n ++ rest) = some (n, rest) := by
  unfold decU64 encU64
  rw [readN_of_length _ _ (encFixLE_length 8 n)]
  have hlt : n < 18446744073709551616 := (by norm_num : (2 : Nat) ^ 64 = 18446744073709551616) ▸ h
  simp [decFixLE_encFixLE, Nat.mod_eq_of_lt hlt]

theorem decBytes_encBytes (s rest : List Nat) (h : s.length < 2 ^ 64) :
    decBytes (encBytes s ++ rest) = some (s, rest) := by
  unfold decBytes encBytes
  rw [List.append_assoc, decU64_encU64 s.length (s ++ rest) h]
  simpa using readN_exact s rest

theorem KvLog.decode_encode (r : KvLog) (rest : List Nat) (h : r.wf) :
    KvLog.decode (r.encode ++ rest) = some (r, rest) := by
  cases r with
  | Set k v =>
    obtain ⟨hk, hv⟩ := h
    simp only [KvLog.encode, List.append_assoc, KvLog.decode,
      decU32_encU32 0 _ (by norm_num), Option.some_bind, if_pos rfl, if_true,
      decBytes_encBytes k _ hk, decBytes_encBytes v _ hv, Option.map_some']
  | Rm k =>
    simp only [KvLog.encode, List.append_assoc, KvLog.decode,
      decU32_encU32 1 _ (by norm_num), Option.some_bind,
      if_neg (by norm_num : (1 : Nat) ≠ 0), if_pos rfl, if_true,
      decBytes_encBytes k _ h, Option.map_some']

theorem KvLog.encode_length_pos (r : KvLog) : 0 < r.encode.length := by
  cases r <;> simp [KvLog.encode, encBytes, encU32, encU64, encFixLE]

theorem readN_snd_length {n : Nat} {s a b : List Nat} (h : readN n s = some (a, b)) :
    b.length = s.length - n ∧ n ≤ s.length := by
  unfold readN at h
  by_cases hle : n ≤ s.length
  · rw [if_pos hle] at h
    obtain ⟨ha, hb⟩ := Prod.mk.injEq .. ▸ Option.some.inj h
    subst hb
    exact ⟨by simp, hle⟩
  · rw [if_neg hle] at h
    exact absurd h (by simp)

theorem decBytes_snd_le {s a b : List Nat} (h : decBytes s = some (a, b)) :
    b.length ≤ s.length := by
  unfold decBytes at h
  obtain ⟨p, h64, hrd⟩ := Option.bind_eq_some.mp h
  unfold decU64 at h64
  obtain ⟨q, hrn, hq⟩ := Option.map_eq_some'.mp h64
  have hp2 : p.2 = q.2 := by rw [← hq]
  have h1 := readN_snd_length hrn
  have h2 := readN_snd_length hrd
  rw [hp2] at h2
  omega

theorem KvLog.decode_shrinks {s : List Nat} {r : KvLog} {rest : List Nat}
    (h : KvLog.decode s = some (r, rest)) : rest.length < s.length := by
  unfold KvLog.decode at h
  obtain ⟨p, h32, hbody⟩ := Option.bind_eq_some.mp h
  have hr1 : p.2.length < s.length := by
    unfold decU32 at h32
    obtain ⟨q, hrn, hq⟩ := Option.map_eq_some'.mp h32
    have hp2 : p.2 = q.2 := by rw [← hq]
    have h1 := readN_snd_length hrn
    rw [hp2]
    omega
  by_cases h0 : p.1 = 0
  · rw [if_pos h0] at hbody
    obtain ⟨q, hb1, hbody2⟩ := Option.bind_eq_some.mp hbody
    obtain ⟨w, hb2, hw⟩ := Option.map_eq_some'.mp hbody2
    have hrest : w.2.length = rest.length := congrArg (fun x => x.2.length) hw
    have l1 := decBytes_snd_le hb1
    have l2 := decBytes_snd_le hb2
    omega
  · rw [if_neg h0] at hbody
    by_cases h1 : p.1 = 1
    · rw [if_pos h1] at hbody
      obtain ⟨q, hb1, hq⟩ := Option.map_eq_some'.mp hbody
      have hrest : q.2.length = rest.length := congrArg (fun x => x.2.length) hq
      have l1 := decBytes_snd_le hb1
      omega
    · rw [if_neg h1] at hbody
      exact absurd hbody (by simp)

/-- Log pointer map (LogPointerMap = HashMap of String to u64 in lib.rs),
modelled as an association list without duplicate keys; since a HashMap has
no canonical iteration order, map-level claims are stated through lookup. -/
abbrev Index := List (Key × Nat)

/-- Lookup of a key, models HashMap::get. -/
def lookupIdx : Index → Key → Option Nat
  | [], _ => none
  | (k', v) :: rest, k => if k' = k then some v else lookupIdx rest k

/-- Models HashMap::insert: replaces the value of an existing key in place,
appends a fresh key at the end; the flag tells whether an old value was
replaced (that is, whether insert returned Some). -/
def insertIdx : Index → Key → Nat → Index × Bool
  | [], k, v => ([(k, v)], false)
  | (k', v') :: rest, k, v =>
    if k' = k then ((k', v) :: rest, true)
    else
      let p := insertIdx rest k v
      ((k', v') :: p.1, p.2)

/-- Models HashMap::remove: drops the entry of the key if present; the flag
tells whether an entry was removed (whether remove returned Some). -/
def removeIdx : Index → Key → Index × Bool
  | [], _ => ([], false)
  | (k', v') :: rest, k =>
    if k' = k then (rest, true)
    else
      let p := removeIdx rest k
      ((k', v') :: p.1, p.2)

/-- No duplicate keys: invariant of every association list built by
insertIdx and removeIdx from the empty map. -/
def NoDupKeys (idx : Index) : Prop := (idx.map Prod.fst).Nodup

/-- Insertion of an entry into a list sorted by offset ascending. -/
def insertSorted (p : Key × Nat) : List (Key × Nat) → List (Key × Nat)
  | [] => [p]
  | q :: rest => if p.2 ≤ q.2 then p :: q :: rest else q :: insertSorted p rest

/-- Sorting the index entries by offset ascending; models the
sort_unstable_by_key call of KvStore::compact (offsets of distinct live
keys are distinct, so the order is canonical). -/
def sortByOffset : Index → List (Key × Nat)
  | [] => []
  | p :: rest => insertSorted p (sortByOffset rest)

/-- Error kinds as used by lib.rs: Io, Serde (the spec calls it
Serialization), KeyNotFound and Corruption.  Note that src/error.rs
declares only the Io and Serde variants; KeyNotFound and Corruption are
constructed by lib.rs (lines 196 and 267) and listed by its doc comments,
but are missing from the declared enum — the two missing variants are
modelled from the spec.  See the theorem for claim C9. -/
inductive ErrorKind where
  | Io
  | Serde
  | KeyNotFound
  | Corruption
  deriving DecidableEq

/-- ErrorKind exactly as declared by src/error.rs lines 53 to 62: only the
Io and Serde variants exist there. -/
inductive DeclaredErrorKind where
  | Io
  | Serde
  deriving DecidableEq

/-- Compact file when there are enough redundant records
(COMPACT_REDUNDANT_THRESHOLD in lib.rs). -/
def COMPACT_REDUNDANT_THRESHOLD : Nat := 1024

/-- State of a KvStore.  The file field is the flushed content of the log
file 0.bin; buffer is the content of the append writer's in-memory write
buffer, so the logical log stream is file ++ buffer.  log_file_path and the
reader and writer handles carry no logical state and are not modelled; the
model keeps the whole buffer in memory (flushes move bytes from buffer to
file at unchanged absolute offsets, so reads are unaffected by when the
BufWriter flushes). -/
structure KvStore where
  file : List Nat
  buffer : List Nat
  log_pointer : Index
  redundant_count : Nat
  deriving DecidableEq

/-- Models KvStore::get_kvlog_from_offset: if the offset is at or past the
flushed file length the record is decoded from the write buffer at
offset - log_len, otherwise from the file at offset; a failed decode is a
Serde error. -/
def KvStore.get_kvlog_from_offset (s : KvStore) (offset : Nat) : Except ErrorKind KvLog :=
  let log_len := s.file.length
  if log_len ≤ offset then
    match KvLog.decode (s.buffer.drop (offset - log_len)) with
    | some p => .ok p.1
    | none => .error .Serde
  else
    match KvLog.decode (s.file.drop offset) with
    | some p => .ok p.1
    | none => .error .Serde

/-- Models KvStore::get.  The key-match check on the decoded Set record is
commented out in the source (lib.rs lines 190 to 193), so only a decoded
Rm record produces a Corruption error; a Set record's value is returned
without comparing its key to the requested one. -/
def KvStore.get (s : KvStore) (key : Key) : Except ErrorKind (Option Value) :=
  match lookupIdx s.log_pointer key with
  | none => .ok none
  | some offset =>
    match s.get_kvlog_from_offset offset with
    | .ok (.Set _k v) => .ok (some v)
    | .ok _ => .error .Corruption
    | .error e => .error e

/-- Fault injection points for compaction, one per fallible step of
KvStore::compact before and including the rename: removing a stale temp
file, opening the temp file, reading the i-th live record back from the old
log (or writing it out), opening the fresh reader, and the final rename. -/
inductive CompactFault where
  | removeTemp
  | openTemp
  | readRec (i : Nat)
  | openReader
  | rename
  deriving DecidableEq

/-- Loop of KvStore::compact over the offset-sorted live entries: reads the
record of each entry from the old log, assigns the entry the new file's
current length as its new offset, and appends the encoded record to the new
log; the new log is entirely buffered, its on-disk length stays 0 until the
buffer is flushed, so the assigned offset is the byte count written so far. -/
def KvStore.compactLoop (s : KvStore) (fault : Option CompactFault) :
    List (Key × Nat) → Nat → List Nat → Index → Except ErrorKind (List Nat × Index)
  | [], _, newLog, acc => .ok (newLog, acc)
  | e :: entries, i, newLog, acc =>
    if fault = some (.readRec i) then .error .Io
    else
      Except.bind (s.get_kvlog_from_offset e.2) fun r =>
        s.compactLoop fault entries (i + 1) (newLog ++ r.encode) (acc ++ [(e.1, newLog.length)])

/-- Models KvStore::compact.  Every step up to and including the rename can
fail, in which case the error is returned and the store is untouched (the
function does not modify its argument; the caller decides what state to
keep).  On success the log file is replaced by the rewritten log: the new
file's flushed content is empty (everything still sits in the new append
writer's buffer), the private index copy with reassigned offsets becomes
the log pointer map, and the redundancy counter resets to 0. -/
def KvStore.compact (s : KvStore) (fault : Option CompactFault) : Except ErrorKind KvStore :=
  if fault = some .removeTemp then .error .Io
  else if fault = some .openTemp then .error .Io
  else
    Except.bind (s.compactLoop fault (sortByOffset s.log_pointer) 0 [] []) fun p =>
      if fault = some .openReader then .error .Io
      else if fault = some .rename then .error .Io
      else .ok ⟨[], p.1, p.2, 0⟩

/-- Models KvStore::increment_redundant: bump the redundancy counter, and
when it reaches COMPACT_REDUNDANT_THRESHOLD run compaction; a compaction
error is only logged (eprintln) and the pre-compaction state is kept. -/
def KvStore.increment_redundant (s : KvStore) (fault : Option CompactFault) : KvStore :=
  let s' := { s with redundant_count := s.redundant_count + 1 }
  if COMPACT_REDUNDANT_THRESHOLD ≤ s'.redundant_count then
    match s'.compact fault with
    | .ok t => t
    | .error _ => s'
  else s'

/-- Models KvStore::set: record the offset file_len + buffer_len, append
the encoded Set record to the write buffer, insert the key at that offset
into the log pointer map, and on an overwrite go through
increment_redundant.  Appending to the in-memory buffer cannot fail in the
model, matching the facade contract that set only reports append errors. -/
def KvStore.set (s : KvStore) (key : Key) (value : Value) (fault : Option CompactFault) : KvStore :=
  let new_offset := s.file.length + s.buffer.length
  let kvlog := KvLog.Set key value
  let s1 := { s with buffer := s.buffer ++ kvlog.encode }
  let p := insertIdx s1.log_pointer kvlog.key new_offset
  let s2 := { s1 with log_pointer := p.1 }
  if p.2 then s2.increment_redundant fault else s2

/-- Models KvStore::remove: a key absent from the log pointer map fails
with KeyNotFound and nothing is appended; otherwise a Rm record is
appended, the key is deleted from the map, and the redundancy counter is
bumped through increment_redundant. -/
def KvStore.remove (s : KvStore) (key : Key) (fault : Option CompactFault) : Except ErrorKind KvStore :=
  if (lookupIdx s.log_pointer key).isSome then
    let kvlog := KvLog.Rm key
    let s1 := { s with buffer := s.buffer ++ kvlog.encode }
    let p := removeIdx s1.log_pointer kvlog.key
    let s2 := { s1 with log_pointer := p.1 }
    .ok (if p.2 then s2.increment_redundant fault else s2)
  else .error .KeyNotFound

/-- Replay action of one decoded record on the index, as in the loop of
KvStore::open: a Set record inserts key at the recorded position, a Rm
record deletes the key; the flag reports a replaced or removed old entry
(the update_result of the source, counted as a redundant record). -/
def applyRecord (idx : Index) (r : KvLog) (pos : Nat) : Index × Bool :=
  match r with
  | .Set k _ => insertIdx idx k pos
  | .Rm k => removeIdx idx k

/-- Scan loop of KvStore::open: while bytes remain, record the position,
decode one record and apply it, counting redundant records.  The fuel
argument only makes the recursion structural; fuel larger than the byte
count never runs out because every decode consumes at least one byte. -/
def scanFuel : Nat → List Nat → Nat → Index → Nat → Option (Index × Nat)
  | 0, _, _, _, _ => none
  | _ + 1, [], _, idx, cnt => some (idx, cnt)
  | fuel + 1, s, pos, idx, cnt =>
    match KvLog.decode s with
    | none => none
    | some (r, rest) =>
      let consumed := s.length - rest.length
      let p := applyRecord idx r pos
      scanFuel fuel rest (pos + consumed) p.1 (if p.2 then cnt + 1 else cnt)

/-- Models KvStore::open on the current content of the log file: rebuild
the log pointer map and the redundancy count by one linear scan; a decode
failure aborts open with a Serde error (none here).  The opened store has
the scanned bytes as flushed file content and an empty write buffer. -/
def KvStore.openStore (bytes : List Nat) : Option KvStore :=
  match scanFuel (bytes.length + 1) bytes 0 [] 0 with
  | none => none
  | some p => some ⟨bytes, [], p.1, p.2⟩

/-- A store opened on an empty directory: open creates an empty log file
and scans nothing. -/
def emptyStore : KvStore := ⟨[], [], [], 0⟩

/-- One live call corresponding to a log record: a Set record is the
KvStore::set call with its key and value, a Rm record the KvStore::remove
call (failing if the key is absent). -/
def liveApply (s : KvStore) : KvLog → Option KvStore
  | .Set k v => some (s.set k v none)
  | .Rm k => (s.remove k none).toOption

/-- Running a sequence of live set and remove calls in log order from a
freshly opened empty store; none when some remove call failed. -/
def liveRun (recs : List KvLog) : Option KvStore :=
  recs.foldlM liveApply emptyStore

/-- Concatenated encoding of a record sequence: the logical log stream. -/
def encodeAll (recs : List KvLog) : List Nat := (recs.map KvLog.encode).flatten

/-- Records of a sequence paired with their byte start positions. -/
def recsWithPos : List KvLog → Nat → List (KvLog × Nat)
  | [], _ => []
  | r :: rs, pos => (r, pos) :: recsWithPos rs (pos + r.encode.length)

/-- Record-level replay of a log: the index and redundancy count the scan
of KvStore::open produces on the encoded stream. -/
def replayRecs : List KvLog → Nat → Index → Nat → Index × Nat
  | [], _, idx, cnt => (idx, cnt)
  | r :: rs, pos, idx, cnt =>
    let p := applyRecord idx r pos
    replayRecs rs (pos + r.encode.length) p.1 (if p.2 then cnt + 1 else cnt)

/-- Most recent record of a key in a record sequence, together with its
byte position; acc is the candidate seen so far. -/
def lastRec : List KvLog → Nat → Key → Option (KvLog × Nat) → Option (KvLog × Nat)
  | [], _, _, acc => acc
  | r :: rs, pos, k, acc =>
    lastRec rs (pos + r.encode.length) k (if r.key = k then some (r, pos) else acc)

/-- Value of the most recent Set of a key, none if the key's most recent
record is a Rm or the key never occurs: the logical content of the store. -/
def lastValue (recs : List KvLog) (k : Key) : Option Value :=
  match lastRec recs 0 k none with
  | some (.Set _ v, _) => some v
  | _ => none

/-- Tells whether the most recent record of a key is a Set. -/
def lastIsSet (recs : List KvLog) (k : Key) : Bool :=
  match lastRec recs 0 k none with
  | some (.Set _ _, _) => true
  | _ => false

/-- Index assigning each record of a sequence its byte position, in
sequence order: the log pointer map of a freshly compacted log. -/
def ptrsOf (recs : List KvLog) (pos : Nat) : Index :=
  (recsWithPos recs pos).map (fun rp => (rp.1.key, rp.2))

/-- Record read at an entry's offset, with a dummy on a read error; used
only to express the output of a compaction whose reads all succeed. -/
def readRecD (s : KvStore) (e : Key × Nat) : KvLog :=
  match s.get_kvlog_from_offset e.2 with
  | .ok r => r
  | .error _ => .Rm []

/-- Store invariant, witnessed by a record sequence and a flush boundary:
the flushed file holds the encoding of the first n records, the write
buffer the encoding of the rest, and the log pointer map and redundancy
counter are exactly what replaying the sequence produces. -/
def InvWith (s : KvStore) (recs : List KvLog) (n : Nat) : Prop :=
  wfAll recs ∧
  s.file = encodeAll (recs.take n) ∧
  s.buffer = encodeAll (recs.drop n) ∧
  s.log_pointer = (replayRecs recs 0 [] 0).1 ∧
  s.redundant_count = (replayRecs recs 0 [] 0).2

/-- Store invariant: some record sequence and flush boundary fit the state. -/
def StoreInv (s : KvStore) : Prop := ∃ recs n, InvWith s recs n

theorem lookupIdx_eq_none {idx : Index} {k : Key} :
    lookupIdx idx k = none ↔ k ∉ idx.map Prod.fst := by
  induction idx with
  | nil => simp [lookupIdx]
  | cons e rest ih =>
    obtain ⟨k', v'⟩ := e
    by_cases h : k' = k
    · subst h
      simp [lookupIdx]
    · simp [lookupIdx, if_neg h, ih, Ne.symm h]

theorem lookupIdx_isSome {idx : Index} {k : Key} :
    (lookupIdx idx k).isSome = true ↔ k ∈ idx.map Prod.fst := by
  rw [← Decidable.not_iff_not, ← lookupIdx_eq_none]
  cases lookupIdx idx k <;> simp

theorem lookupIdx_insertIdx_self (idx : Index) (k : Key) (v : Nat) :
    lookupIdx (insertIdx idx k v).1 k = some v := by
  induction idx with
  | nil => simp [insertIdx, lookupIdx]
  | cons e rest ih =>
    obtain ⟨k', v'⟩ := e
    by_cases h : k' = k
    · subst h
      simp [insertIdx, lookupIdx]
    · simp [insertIdx, if_neg h, lookupIdx, ih]

theorem lookupIdx_insertIdx_other (idx : Index) (k : Key) (v : Nat) {k' : Key} (h : k' ≠ k) :
    lookupIdx (insertIdx idx k v).1 k' = lookupIdx idx k' := by
  induction idx with
  | nil => simp [insertIdx, lookupIdx, if_neg (Ne.symm h)]
  | cons e rest ih =>
    obtain ⟨k'', v''⟩ := e
    by_cases h2 : k'' = k
    · subst h2
      simp [insertIdx, lookupIdx, if_neg (fun hh => h (hh ▸ rfl) : ¬k'' = k')]
    · by_cases h3 : k'' = k'
      · subst h3
        simp [insertIdx, if_neg h2, lookupIdx]
      · simp [insertIdx, if_neg h2, lookupIdx, if_neg h3, ih]

theorem insertIdx_snd (idx : Index) (k : Key) (v : Nat) :
    (insertIdx idx k v).2 = (lookupIdx idx k).isSome := by
  induction idx with
  | nil => simp [insertIdx, lookupIdx]
  | cons e rest ih =>
    obtain ⟨k', v'⟩ := e
    by_cases h : k' = k
    · subst h
      simp [insertIdx, lookupIdx]
    · simp [insertIdx, if_neg h, lookupIdx, ih]

theorem removeIdx_snd (idx : Index) (k : Key) :
    (removeIdx idx k).2 = (lookupIdx idx k).isSome := by
  induction idx with
  | nil => simp [removeIdx, lookupIdx]
  | cons e rest ih =>
    obtain ⟨k', v'⟩ := e
    by_cases h : k' = k
    · subst h
      simp [removeIdx, lookupIdx]
    · simp [removeIdx, if_neg h, lookupIdx, ih]

theorem lookupIdx_removeIdx_other (idx : Index) (k : Key) {k' : Key} (h : k' ≠ k) :
    lookupIdx (removeIdx idx k).1 k' = lookupIdx idx k' := by
  induction idx with
  | nil => simp [removeIdx]
  | cons e rest ih =>
    obtain ⟨k'', v''⟩ := e
    by_cases h2 : k'' = k
    · subst h2
      simp [removeIdx, lookupIdx, if_neg (fun hh => h (hh ▸ rfl) : ¬k'' = k')]
    · by_cases h3 : k'' = k'
      · subst h3
        simp [removeIdx, if_neg h2, lookupIdx]
      · simp [removeIdx, if_neg h2, lookupIdx, if_neg h3, ih]

theorem removeIdx_sublist (idx : Index) (k : Key) : (removeIdx idx k).1.Sublist idx := by
  induction idx with
  | nil => simp [removeIdx]
  | cons e rest ih =>
    obtain ⟨k', v'⟩ := e
    by_cases h : k' = k
    · subst h
      simp only [removeIdx, if_pos rfl]
      exact List.sublist_cons_self _ _
    · simp only [removeIdx, if_neg h]
      exact ih.cons₂ _

theorem lookupIdx_removeIdx_self (idx : Index) (k : Key) (h : NoDupKeys idx) :
    lookupIdx (removeIdx idx k).1 k = none := by
  induction idx with
  | nil => simp [removeIdx, lookupIdx]
  | cons e rest ih =>
    obtain ⟨k', v'⟩ := e
    have hrest : NoDupKeys rest := (List.nodup_cons.mp h).2
    by_cases h2 : k' = k
    · subst h2
      simp only [removeIdx, if_pos rfl]
      rw [lookupIdx_eq_none]
      exact (List.nodup_cons.mp h).1
    · simp [removeIdx, if_neg h2, lookupIdx, if_neg h2, ih hrest]

theorem insertIdx_keys (idx : Index) (k : Key) (v : Nat) :
    (insertIdx idx k v).1.map Prod.fst =
      if (lookupIdx idx k).isSome then idx.map Prod.fst else idx.map Prod.fst ++ [k] := by
  induction idx with
  | nil => simp [insertIdx, lookupIdx]
  | cons e rest ih =>
    obtain ⟨k', v'⟩ := e
    by_cases h : k' = k
    · subst h
      simp [insertIdx, lookupIdx]
    · simp only [insertIdx, if_neg h, lookupIdx, List.map_cons]
      rw [ih]
      by_cases h2 : (lookupIdx rest k).isSome
      · simp [h2]
      · simp [h2]

theorem NoDupKeys_insertIdx (idx : Index) (k : Key) (v : Nat) (h : NoDupKeys idx) :
    NoDupKeys (insertIdx idx k v).1 := by
  unfold NoDupKeys
  rw [insertIdx_keys]
  by_cases h2 : (lookupIdx idx k).isSome
  · simpa [h2] using h
  · have hk : k ∉ idx.map Prod.fst := by
      rw [← lookupIdx_eq_none]
      cases hl : lookupIdx idx k
      · rfl
      · rw [hl] at h2; simp at h2
    have h' : (idx.map Prod.fst).Nodup := h
    simp [h2, List.nodup_append, h', hk]

theorem NoDupKeys_removeIdx (idx : Index) (k : Key) (h : NoDupKeys idx) :
    NoDupKeys (removeIdx idx k).1 :=
  ((removeIdx_sublist idx k).map Prod.fst).nodup h

theorem lookupIdx_of_mem {idx : Index} {k : Key} {v : Nat}
    (h : NoDupKeys idx) (hm : (k, v) ∈ idx) : lookupIdx idx k = some v := by
  induction idx with
  | nil => exact absurd hm (by simp)
  | cons e rest ih =>
    obtain ⟨k', v'⟩ := e
    rcases List.mem_cons.mp hm with heq | hmem
    · obtain ⟨h1, h2⟩ := Prod.mk.injEq .. ▸ heq.symm
      subst h1; subst h2
      simp [lookupIdx]
    · have hrest : NoDupKeys rest := (List.nodup_cons.mp h).2
      have hne : k' ≠ k := by
        intro hk
        subst hk
        exact (List.nodup_cons.mp h).1 (List.mem_map.mpr ⟨(k', v), hmem, rfl⟩)
      simp [lookupIdx, if_neg hne, ih hrest hmem]

theorem mem_of_lookupIdx {idx : Index} {k : Key} {v : Nat}
    (h : lookupIdx idx k = some v) : (k, v) ∈ idx := by
  induction idx with
  | nil => exact absurd h (by simp [lookupIdx])
  | cons e rest ih =>
    obtain ⟨k', v'⟩ := e
    by_cases h2 : k' = k
    · subst h2
      rw [lookupIdx, if_pos rfl] at h
      simp [Option.some.inj h]
    · rw [lookupIdx, if_neg h2] at h
      exact List.mem_cons_of_mem _ (ih h)

theorem insertSorted_perm (p : Key × Nat) (l : List (Key × Nat)) :
    (insertSorted p l).Perm (p :: l) := by
  induction l with
  | nil => rfl
  | cons q rest ih =>
    by_cases h : p.2 ≤ q.2
    · simp [insertSorted, if_pos h]
    · simp only [insertSorted, if_neg h]
      exact (ih.cons q).trans (List.Perm.swap p q rest)

theorem sortByOffset_perm (l : Index) : (sortByOffset l).Perm l := by
  induction l with
  | nil => rfl
  | cons p rest ih =>
    exact (insertSorted_perm p (sortByOffset rest)).trans (ih.cons p)

theorem insertSorted_pairwise (p : Key × Nat) (l : List (Key × Nat))
    (h : List.Pairwise (fun a b => a.2 ≤ b.2) l) :
    List.Pairwise (fun a b => a.2 ≤ b.2) (insertSorted p l) := by
  induction l with
  | nil => simp [insertSorted]
  | cons q rest ih =>
    obtain ⟨hq, hrest⟩ := List.pairwise_cons.mp h
    by_cases hle : p.2 ≤ q.2
    · rw [insertSorted, if_pos hle]
      refine List.Pairwise.cons ?_ h
      intro x hx
      rcases List.mem_cons.mp hx with rfl | hx2
      · exact hle
      · exact hle.trans (hq x hx2)
    · rw [insertSorted, if_neg hle]
      refine List.Pairwise.cons ?_ (ih hrest)
      intro x hx
      rcases List.mem_cons.mp ((insertSorted_perm p rest).mem_iff.mp hx) with rfl | hx2
      · exact le_of_not_le hle
      · exact hq x hx2

theorem sortByOffset_pairwise (l : Index) :
    List.Pairwise (fun a b => a.2 ≤ b.2) (sortByOffset l) := by
  induction l with
  | nil => simp [sortByOffset]
  | cons p rest ih => exact insertSorted_pairwise p _ ih

theorem encodeAll_nil : encodeAll [] = [] := rfl

theorem encodeAll_cons (r : KvLog) (rs : List KvLog) :
    encodeAll (r :: rs) = r.encode ++ encodeAll rs := by
  simp [encodeAll]

theorem encodeAll_append (xs ys : List KvLog) :
    encodeAll (xs ++ ys) = encodeAll xs ++ encodeAll ys := by
  simp [encodeAll]

theorem scanFuel_step (fuel : Nat) (s rest : List Nat) (r : KvLog)
    (pos : Nat) (idx : Index) (cnt : Nat)
    (hne : s ≠ []) (hdec : KvLog.decode s = some (r, rest)) :
    scanFuel (fuel + 1) s pos idx cnt =
      scanFuel fuel rest (pos + (s.length - rest.length)) (applyRecord idx r pos).1
        (if (applyRecord idx r pos).2 then cnt + 1 else cnt) := by
  cases s with
  | nil => exact absurd rfl hne
  | cons b bs =>
    simp only [scanFuel]
    rw [hdec]

theorem scanFuel_encodeAll (recs : List KvLog) (h : wfAll recs) :
    ∀ fuel pos idx cnt, (encodeAll recs).length < fuel →
      scanFuel fuel (encodeAll recs) pos idx cnt = some (replayRecs recs pos idx cnt) := by
  induction recs with
  | nil =>
    intro fuel pos idx cnt hfuel
    rw [encodeAll_nil] at hfuel ⊢
    obtain ⟨f, rfl⟩ : ∃ f, fuel = f + 1 := ⟨fuel - 1, by omega⟩
    rfl
  | cons r rs ih =>
    intro fuel pos idx cnt hfuel
    have hwr : r.wf := h r (List.mem_cons_self r rs)
    have hwrs : wfAll rs := fun x hx => h x (List.mem_cons_of_mem r hx)
    rw [encodeAll_cons] at hfuel ⊢
    have hpos := KvLog.encode_length_pos r
    obtain ⟨f, rfl⟩ : ∃ f, fuel = f + 1 := ⟨fuel - 1, by omega⟩
    have hne : r.encode ++ encodeAll rs ≠ [] := by
      intro hh
      rw [List.append_eq_nil] at hh
      rw [hh.1] at hpos
      simp at hpos
    rw [scanFuel_step f _ (encodeAll rs) r pos idx cnt hne
      (KvLog.decode_encode r (encodeAll rs) hwr)]
    have hlen : (r.encode ++ encodeAll rs).length - (encodeAll rs).length = r.encode.length := by
      simp
    rw [hlen, replayRecs]
    exact ih hwrs f _ _ _ (by simp only [List.length_append] at hfuel; omega)

theorem openStore_encodeAll (recs : List KvLog) (h : wfAll recs) :
    KvStore.openStore (encodeAll recs) =
      some ⟨encodeAll recs, [], (replayRecs recs 0 [] 0).1, (replayRecs recs 0 [] 0).2⟩ := by
  unfold KvStore.openStore
  rw [scanFuel_encodeAll recs h _ 0 [] 0 (by omega)]

theorem recsWithPos_append (xs ys : List KvLog) (q : Nat) :
    recsWithPos (xs ++ ys) q = recsWithPos xs q ++ recsWithPos ys (q + (encodeAll xs).length) := by
  induction xs generalizing q with
  | nil => simp [recsWithPos, encodeAll_nil]
  | cons r rs ih =>
    simp [recsWithPos, ih, encodeAll_cons, Nat.add_assoc]

theorem mem_recsWithPos_ge {recs : List KvLog} {q : Nat} {r : KvLog} {p : Nat}
    (h : (r, p) ∈ recsWithPos recs q) : q ≤ p := by
  induction recs generalizing q with
  | nil => simp [recsWithPos] at h
  | cons r0 rs ih =>
    rw [recsWithPos] at h
    rcases List.mem_cons.mp h with heq | hmem
    · have : p = q := congrArg Prod.snd heq
      omega
    · have := ih hmem
      omega

theorem mem_recsWithPos_mem {recs : List KvLog} {q : Nat} {r : KvLog} {p : Nat}
    (h : (r, p) ∈ recsWithPos recs q) : r ∈ recs := by
  induction recs generalizing q with
  | nil => simp [recsWithPos] at h
  | cons r0 rs ih =>
    rw [recsWithPos] at h
    rcases List.mem_cons.mp h with heq | hmem
    · have : r = r0 := congrArg Prod.fst heq
      rw [this]
      exact List.mem_cons_self r0 rs
    · exact List.mem_cons_of_mem r0 (ih hmem)

theorem mem_recsWithPos_drop {recs : List KvLog} {q : Nat} {r : KvLog} {p : Nat}
    (h : (r, p) ∈ recsWithPos recs q) :
    q ≤ p ∧ ∃ tail, (encodeAll recs).drop (p - q) = r.encode ++ tail := by
  induction recs generalizing q with
  | nil => simp [recsWithPos] at h
  | cons r0 rs ih =>
    rw [recsWithPos] at h
    rcases List.mem_cons.mp h with heq | hmem
    · have hr : r = r0 := congrArg Prod.fst heq
      have hp : p = q := congrArg Prod.snd heq
      subst hr
      refine ⟨by omega, encodeAll rs, ?_⟩
      rw [encodeAll_cons, hp]
      simp
    · obtain ⟨hge, tail, htl⟩ := ih hmem
      refine ⟨by omega, tail, ?_⟩
      rw [encodeAll_cons]
      rw [show p - q = r0.encode.length + (p - (q + r0.encode.length)) from by omega]
      rw [List.drop_append]
      exact htl

theorem wfAll_take (recs : List KvLog) (n : Nat) (h : wfAll recs) : wfAll (recs.take n) :=
  fun r hr => h r (List.mem_of_mem_take hr)

theorem get_kvlog_of_mem {s : KvStore} {recs : List KvLog} {n : Nat} {r : KvLog} {p : Nat}
    (hwf : wfAll recs)
    (hf : s.file = encodeAll (recs.take n))
    (hb : s.buffer = encodeAll (recs.drop n))
    (hm : (r, p) ∈ recsWithPos recs 0) :
    s.get_kvlog_from_offset p = .ok r := by
  have hwr : r.wf := hwf r (mem_recsWithPos_mem hm)
  have hfull : encodeAll recs = s.file ++ s.buffer := by
    rw [hf, hb, ← encodeAll_append, List.take_append_drop]
  by_cases hlt : p < s.file.length
  · have hsplit := recsWithPos_append (recs.take n) (recs.drop n) 0
    rw [List.take_append_drop] at hsplit
    rw [hsplit] at hm
    rcases List.mem_append.mp hm with hm1 | hm2
    · obtain ⟨-, tail, htl⟩ := mem_recsWithPos_drop hm1
      rw [Nat.sub_zero, ← hf] at htl
      unfold KvStore.get_kvlog_from_offset
      rw [if_neg (by omega : ¬ s.file.length ≤ p)]
      rw [htl, KvLog.decode_encode r tail hwr]
    · have := mem_recsWithPos_ge hm2
      rw [← hf] at this
      omega
  · obtain ⟨-, tail, htl⟩ := mem_recsWithPos_drop hm
    rw [Nat.sub_zero, hfull] at htl
    rw [show p = s.file.length + (p - s.file.length) from by omega, List.drop_append] at htl
    unfold KvStore.get_kvlog_from_offset
    rw [if_pos (by omega : s.file.length ≤ p)]
    rw [htl, KvLog.decode_encode r tail hwr]

theorem replayRecs_app (xs ys : List KvLog) (pos : Nat) (idx : Index) (cnt : Nat) :
    replayRecs (xs ++ ys) pos idx cnt =
      replayRecs ys (pos + (encodeAll xs).length)
        (replayRecs xs pos idx cnt).1 (replayRecs xs pos idx cnt).2 := by
  induction xs generalizing pos idx cnt with
  | nil => simp [replayRecs, encodeAll_nil]
  | cons r rs ih =>
    simp only [List.cons_append, replayRecs, encodeAll_cons, List.length_append,
      ← Nat.add_assoc]
    exact ih _ _ _

theorem NoDupKeys_applyRecord (idx : Index) (r : KvLog) (pos : Nat) (h : NoDupKeys idx) :
    NoDupKeys (applyRecord idx r pos).1 := by
  cases r with
  | Set k v => exact NoDupKeys_insertIdx idx k pos h
  | Rm k => exact NoDupKeys_removeIdx idx k h

theorem replayRecs_nodup (recs : List KvLog) (pos : Nat) (idx : Index) (cnt : Nat)
    (h : NoDupKeys idx) : NoDupKeys (replayRecs recs pos idx cnt).1 := by
  induction recs generalizing pos idx cnt with
  | nil => exact h
  | cons r rs ih =>
    rw [replayRecs]
    exact ih _ _ _ (NoDupKeys_applyRecord idx r pos h)

theorem lastRec_acc (rs : List KvLog) (pos : Nat) (k : Key) (acc : Option (KvLog × Nat)) :
    lastRec rs pos k acc =
      match lastRec rs pos k none with
      | some x => some x
      | none => acc := by
  induction rs generalizing pos acc with
  | nil => simp [lastRec]
  | cons r rs ih =>
    simp only [lastRec]
    by_cases hk : r.key = k
    · rw [if_pos hk, if_pos hk, ih _ (some (r, pos))]
      cases lastRec rs (pos + r.encode.length) k none <;> rfl
    · rw [if_neg hk, if_neg hk, ih _ acc]

theorem lastRec_mem_aux (recs : List KvLog) (pos : Nat) (k : Key)
    (acc : Option (KvLog × Nat)) {r : KvLog} {p : Nat}
    (h : lastRec recs pos k acc = some (r, p)) :
    ((r, p) ∈ recsWithPos recs pos ∧ r.key = k) ∨ acc = some (r, p) := by
  induction recs generalizing pos acc with
  | nil => exact Or.inr h
  | cons r0 rs ih =>
    rw [lastRec] at h
    rcases ih _ _ h with hin | hacc
    · exact Or.inl ⟨List.mem_cons_of_mem _ hin.1, hin.2⟩
    · by_cases hk : r0.key = k
      · rw [if_pos hk] at hacc
        have h1 : r = r0 := (congrArg Prod.fst (Option.some.inj hacc)).symm
        have h2 : p = pos := (congrArg Prod.snd (Option.some.inj hacc)).symm
        subst h1
        subst h2
        exact Or.inl ⟨by rw [recsWithPos]; exact List.mem_cons_self _ _, hk⟩
      · rw [if_neg hk] at hacc
        exact Or.inr hacc

theorem lastRec_mem {recs : List KvLog} {pos : Nat} {k : Key} {r : KvLog} {p : Nat}
    (h : lastRec recs pos k none = some (r, p)) :
    (r, p) ∈ recsWithPos recs pos ∧ r.key = k := by
  rcases lastRec_mem_aux recs pos k none h with hin | hacc
  · exact hin
  · exact absurd hacc (by simp)

theorem replayRecs_cons (r : KvLog) (rs : List KvLog) (pos : Nat) (idx : Index) (cnt : Nat) :
    replayRecs (r :: rs) pos idx cnt =
      replayRecs rs (pos + r.encode.length) (applyRecord idx r pos).1
        (if (applyRecord idx r pos).2 then cnt + 1 else cnt) := rfl

theorem lastRec_cons (r : KvLog) (rs : List KvLog) (pos : Nat) (k : Key)
    (acc : Option (KvLog × Nat)) :
    lastRec (r :: rs) pos k acc =
      lastRec rs (pos + r.encode.length) k (if r.key = k then some (r, pos) else acc) := rfl


theorem get_eq_none {s : KvStore} {k : Key} (h : lookupIdx s.log_pointer k = none) :
    s.get k = .ok none := by
  unfold KvStore.get
  rw [h]

theorem get_eq_some {s : KvStore} {k : Key} {off : Nat}
    (h : lookupIdx s.log_pointer k = some off) :
    s.get k =
      match s.get_kvlog_from_offset off with
      | .ok (.Set _k v) => .ok (some v)
      | .ok _ => .error .Corruption
      | .error e => .error e := by
  unfold KvStore.get
  rw [h]

theorem lookup_replayRecs (recs : List KvLog) (pos : Nat) (idx : Index) (cnt : Nat) (k : Key)
    (hnd : NoDupKeys idx) :
    lookupIdx (replayRecs recs pos idx cnt).1 k =
      match lastRec recs pos k none with
      | some (KvLog.Set _ _, p) => some p
      | some (KvLog.Rm _, _) => none
      | none => lookupIdx idx k := by
  induction recs generalizing pos idx cnt with
  | nil => rfl
  | cons r rs ih =>
    rw [replayRecs_cons, lastRec_cons, ih _ _ _ (NoDupKeys_applyRecord idx r pos hnd),
      lastRec_acc rs (pos + r.encode.length) k (if r.key = k then some (r, pos) else none)]
    cases hL : lastRec rs (pos + r.encode.length) k none with
    | some x =>
      obtain ⟨xr, xp⟩ := x
      cases xr <;> rfl
    | none =>
      by_cases hk : r.key = k
      · rw [if_pos hk]
        cases r with
        | Set k0 v =>
          have hk0 : k0 = k := hk
          subst hk0
          simp [applyRecord, lookupIdx_insertIdx_self]
        | Rm k0 =>
          have hk0 : k0 = k := hk
          subst hk0
          simp [applyRecord, lookupIdx_removeIdx_self idx k0 hnd]
      · rw [if_neg hk]
        cases r with
        | Set k0 v =>
          have hk0 : k ≠ k0 := fun hh => hk ((show (KvLog.Set k0 v).key = k0 from rfl).trans hh.symm)
          simp only [applyRecord]
          exact lookupIdx_insertIdx_other idx k0 _ hk0
        | Rm k0 =>
          have hk0 : k ≠ k0 := fun hh => hk ((show (KvLog.Rm k0).key = k0 from rfl).trans hh.symm)
          simp only [applyRecord]
          exact lookupIdx_removeIdx_other idx k0 hk0

theorem lookup_InvWith {s : KvStore} {recs : List KvLog} {n : Nat}
    (h : InvWith s recs n) (k : Key) :
    lookupIdx s.log_pointer k =
      match lastRec recs 0 k none with
      | some (KvLog.Set _ _, p) => some p
      | some (KvLog.Rm _, _) => none
      | none => none := by
  rw [h.2.2.2.1, lookup_replayRecs recs 0 [] 0 k (by simp [NoDupKeys])]
  cases hL : lastRec recs 0 k none with
  | some x =>
    obtain ⟨xr, xp⟩ := x
    cases xr <;> rfl
  | none => rfl

theorem lookup_some_InvWith {s : KvStore} {recs : List KvLog} {n : Nat} {k : Key} {off : Nat}
    (h : InvWith s recs n) (hl : lookupIdx s.log_pointer k = some off) :
    ∃ v, s.get_kvlog_from_offset off = .ok (KvLog.Set k v) ∧
      lastRec recs 0 k none = some (KvLog.Set k v, off) ∧ KvLog.Set k v ∈ recs := by
  have hlook := lookup_InvWith h k
  cases hL : lastRec recs 0 k none with
  | none =>
    rw [hlook, hL] at hl
    simp at hl
  | some x =>
    obtain ⟨xr, xp⟩ := x
    cases xr with
    | Rm k0 =>
      rw [hlook, hL] at hl
      simp at hl
    | Set k0 v =>
      rw [hlook, hL] at hl
      simp only [Option.some.injEq] at hl
      obtain ⟨hm, hkey⟩ := lastRec_mem hL
      have hk0 : k0 = k := hkey
      subst hk0
      subst hl
      exact ⟨v, get_kvlog_of_mem h.1 h.2.1 h.2.2.1 hm, rfl, mem_recsWithPos_mem hm⟩

theorem get_InvWith {s : KvStore} {recs : List KvLog} {n : Nat}
    (h : InvWith s recs n) (k : Key) :
    s.get k = .ok (lastValue recs k) := by
  have hlook := lookup_InvWith h k
  cases hL : lastRec recs 0 k none with
  | none =>
    have hlk : lookupIdx s.log_pointer k = none := by rw [hlook, hL]
    have hlv : lastValue recs k = none := by unfold lastValue; rw [hL]
    rw [get_eq_none hlk, hlv]
  | some x =>
    obtain ⟨xr, xp⟩ := x
    cases xr with
    | Set k0 v =>
      have hlk : lookupIdx s.log_pointer k = some xp := by rw [hlook, hL]
      have hlv : lastValue recs k = some v := by unfold lastValue; rw [hL]
      obtain ⟨hm, hkey⟩ := lastRec_mem hL
      rw [get_eq_some hlk, get_kvlog_of_mem h.1 h.2.1 h.2.2.1 hm, hlv]
    | Rm k0 =>
      have hlk : lookupIdx s.log_pointer k = none := by rw [hlook, hL]
      have hlv : lastValue recs k = none := by unfold lastValue; rw [hL]
      rw [get_eq_none hlk, hlv]

theorem isSome_lookup_InvWith {s : KvStore} {recs : List KvLog} {n : Nat}
    (h : InvWith s recs n) (k : Key) :
    (lookupIdx s.log_pointer k).isSome = lastIsSet recs k := by
  have hlook := lookup_InvWith h k
  unfold lastIsSet
  cases hL : lastRec recs 0 k none with
  | none =>
    have hlk : lookupIdx s.log_pointer k = none := by rw [hlook, hL]
    rw [hlk]
    rfl
  | some x =>
    obtain ⟨xr, xp⟩ := x
    cases xr with
    | Set k0 v =>
      have hlk : lookupIdx s.log_pointer k = some xp := by rw [hlook, hL]
      rw [hlk]
      rfl
    | Rm k0 =>
      have hlk : lookupIdx s.log_pointer k = none := by rw [hlook, hL]
      rw [hlk]
      rfl

theorem insertIdx_fresh (idx : Index) (k : Key) (v : Nat) (h : lookupIdx idx k = none) :
    insertIdx idx k v = (idx ++ [(k, v)], false) := by
  induction idx with
  | nil => rfl
  | cons e rest ih =>
    obtain ⟨k', v'⟩ := e
    rw [lookupIdx] at h
    by_cases h2 : k' = k
    · rw [if_pos h2] at h
      exact absurd h (by simp)
    · rw [if_neg h2] at h
      simp [insertIdx, if_neg h2, ih h]

theorem lookupIdx_append (a b : Index) (k : Key) :
    lookupIdx (a ++ b) k =
      match lookupIdx a k with
      | some v => some v
      | none => lookupIdx b k := by
  induction a with
  | nil => rfl
  | cons e rest ih =>
    obtain ⟨k', v'⟩ := e
    by_cases h : k' = k
    · simp [lookupIdx, if_pos h]
    · simp [lookupIdx, if_neg h, ih]

theorem lastRec_not_mem (rl : List KvLog) (pos : Nat) (k : Key) (acc : Option (KvLog × Nat))
    (h : k ∉ rl.map KvLog.key) :
    lastRec rl pos k acc = acc := by
  induction rl generalizing pos acc with
  | nil => rfl
  | cons r rs ih =>
    rw [lastRec_cons]
    simp only [List.map_cons, List.mem_cons, not_or] at h
    obtain ⟨h1, h2⟩ := h
    rw [if_neg (fun hh => h1 hh.symm)]
    exact ih _ _ h2

theorem lastRec_of_nodup (rl : List KvLog) (pos : Nat) {r : KvLog}
    (hnd : (rl.map KvLog.key).Nodup) (hm : r ∈ rl) :
    ∃ p, lastRec rl pos r.key none = some (r, p) := by
  induction rl generalizing pos with
  | nil => simp at hm
  | cons r0 rs ih =>
    rw [lastRec_cons]
    rcases List.mem_cons.mp hm with rfl | hmem
    · rw [if_pos rfl]
      have hnot : r.key ∉ rs.map KvLog.key := (List.nodup_cons.mp hnd).1
      exact ⟨pos, lastRec_not_mem rs _ _ _ hnot⟩
    · have hne : r0.key ≠ r.key := by
        intro hh
        exact (List.nodup_cons.mp hnd).1 (hh ▸ List.mem_map.mpr ⟨r, hmem, rfl⟩)
      rw [if_neg hne]
      exact ih _ (List.nodup_cons.mp hnd).2 hmem

theorem lastRec_app (xs ys : List KvLog) (pos : Nat) (k : Key) (acc : Option (KvLog × Nat)) :
    lastRec (xs ++ ys) pos k acc =
      lastRec ys (pos + (encodeAll xs).length) k (lastRec xs pos k acc) := by
  induction xs generalizing pos acc with
  | nil => simp [lastRec, encodeAll_nil]
  | cons r rs ih =>
    simp only [List.cons_append, lastRec_cons, encodeAll_cons, List.length_append,
      ← Nat.add_assoc]
    exact ih _ _

theorem lastValue_append (recs : List KvLog) (r : KvLog) (k' : Key) :
    lastValue (recs ++ [r]) k' =
      if r.key = k' then
        match r with
        | KvLog.Set _ v => some v
        | KvLog.Rm _ => none
      else lastValue recs k' := by
  unfold lastValue
  rw [lastRec_app recs [r] 0 k' none, lastRec_cons]
  by_cases hk : r.key = k'
  · rw [if_pos hk, if_pos hk]
    cases r <;> rfl
  · rw [if_neg hk, if_neg hk]
    rfl

theorem InvWith_empty : InvWith emptyStore [] 0 := by
  refine ⟨?_, rfl, rfl, rfl, rfl⟩
  intro r hr
  simp at hr

theorem InvWith_len {s : KvStore} {recs : List KvLog} {n : Nat} (h : InvWith s recs n) :
    s.file.length + s.buffer.length = (encodeAll recs).length := by
  rw [h.2.1, h.2.2.1, ← List.length_append, ← encodeAll_append, List.take_append_drop]

theorem InvWith_append {s : KvStore} {recs : List KvLog} {n : Nat}
    (h : InvWith s recs n) (hn : n ≤ recs.length) (r : KvLog) (hw : r.wf) :
    InvWith
      ⟨s.file, s.buffer ++ r.encode,
        (applyRecord s.log_pointer r (s.file.length + s.buffer.length)).1,
        s.redundant_count +
          if (applyRecord s.log_pointer r (s.file.length + s.buffer.length)).2 then 1 else 0⟩
      (recs ++ [r]) n := by
  obtain ⟨hwf, hf, hb, hlp, hcnt⟩ := h
  have hlen : s.file.length + s.buffer.length = (encodeAll recs).length :=
    InvWith_len ⟨hwf, hf, hb, hlp, hcnt⟩
  have hrep := replayRecs_app recs [r] 0 [] 0
  refine ⟨?_, ?_, ?_, ?_, ?_⟩
  · intro x hx
    rcases List.mem_append.mp hx with hx | hx
    · exact hwf x hx
    · rw [List.mem_singleton.mp hx]
      exact hw
  · show s.file = encodeAll ((recs ++ [r]).take n)
    rw [List.take_append_of_le_length hn, hf]
  · show s.buffer ++ r.encode = encodeAll ((recs ++ [r]).drop n)
    rw [List.drop_append_of_le_length hn, encodeAll_append, hb]
    congr 1
    simp [encodeAll]
  · show (applyRecord s.log_pointer r (s.file.length + s.buffer.length)).1 =
      (replayRecs (recs ++ [r]) 0 [] 0).1
    rw [hrep, replayRecs_cons, hlen, hlp]
    simp only [Nat.zero_add, replayRecs]
  · show s.redundant_count +
        (if (applyRecord s.log_pointer r (s.file.length + s.buffer.length)).2 then 1 else 0) =
      (replayRecs (recs ++ [r]) 0 [] 0).2
    rw [hrep, replayRecs_cons, hlen, hlp, hcnt]
    simp only [Nat.zero_add, replayRecs]
    cases hx : (applyRecord (replayRecs recs 0 [] 0).1 r (encodeAll recs).length).2 <;> simp [hx]

theorem exbind_ok {α β : Type} (a : α) (f : α → Except ErrorKind β) :
    Except.bind (.ok a) f = f a := rfl

theorem exbind_error {α β : Type} (e : ErrorKind) (f : α → Except ErrorKind β) :
    Except.bind (Except.error e : Except ErrorKind α) f = .error e := rfl

theorem ptrsOf_nil (pos : Nat) : ptrsOf [] pos = [] := rfl

theorem ptrsOf_cons (r : KvLog) (rl : List KvLog) (pos : Nat) :
    ptrsOf (r :: rl) pos = (r.key, pos) :: ptrsOf rl (pos + r.encode.length) := rfl

theorem compactLoop_nil (s : KvStore) (fl : Option CompactFault) (i : Nat)
    (newLog : List Nat) (acc : Index) :
    s.compactLoop fl [] i newLog acc = .ok (newLog, acc) := rfl

theorem compactLoop_cons (s : KvStore) (fl : Option CompactFault) (e : Key × Nat)
    (entries : List (Key × Nat)) (i : Nat) (newLog : List Nat) (acc : Index) :
    s.compactLoop fl (e :: entries) i newLog acc =
      if fl = some (.readRec i) then .error .Io
      else
        Except.bind (s.get_kvlog_from_offset e.2) fun r =>
          s.compactLoop fl entries (i + 1) (newLog ++ r.encode) (acc ++ [(e.1, newLog.length)]) := rfl

theorem compactLoop_ok (s : KvStore) (entries : List (Key × Nat))
    (hread : ∀ e ∈ entries, ∃ v, s.get_kvlog_from_offset e.2 = .ok (KvLog.Set e.1 v)) :
    ∀ i newLog acc,
      s.compactLoop none entries i newLog acc =
        .ok (newLog ++ encodeAll (entries.map (readRecD s)),
             acc ++ ptrsOf (entries.map (readRecD s)) newLog.length) := by
  induction entries with
  | nil =>
    intro i newLog acc
    simp [compactLoop_nil, encodeAll_nil, ptrsOf_nil]
  | cons e rest ih =>
    intro i newLog acc
    obtain ⟨v, hv⟩ := hread e (List.mem_cons_self e rest)
    have hrd : readRecD s e = KvLog.Set e.1 v := by unfold readRecD; rw [hv]
    rw [compactLoop_cons,
      if_neg (by simp : ¬ (none : Option CompactFault) = some (.readRec i)), hv, exbind_ok,
      ih (fun e' he' => hread e' (List.mem_cons_of_mem e he')) (i + 1)
        (newLog ++ (KvLog.Set e.1 v).encode) (acc ++ [(e.1, newLog.length)])]
    rw [List.map_cons, hrd, encodeAll_cons, ptrsOf_cons]
    simp [List.append_assoc, List.length_append, KvLog.key]

theorem replay_sets (recList : List KvLog) :
    ∀ pos idx cnt,
      (∀ r ∈ recList, ∃ k v, r = KvLog.Set k v) →
      (recList.map KvLog.key).Nodup →
      (∀ r ∈ recList, lookupIdx idx r.key = none) →
      replayRecs recList pos idx cnt = (idx ++ ptrsOf recList pos, cnt) := by
  induction recList with
  | nil =>
    intro pos idx cnt _ _ _
    simp [replayRecs, ptrsOf_nil]
  | cons r rl ih =>
    intro pos idx cnt hsets hnd hfresh
    obtain ⟨k, v, rfl⟩ := hsets r (List.mem_cons_self r rl)
    rw [replayRecs_cons]
    have hfr : lookupIdx idx (KvLog.Set k v).key = none := hfresh _ (List.mem_cons_self _ _)
    have happ : applyRecord idx (KvLog.Set k v) pos = (idx ++ [(k, pos)], false) := by
      simp only [applyRecord]
      exact insertIdx_fresh idx k pos hfr
    have hnd2 : (k :: rl.map KvLog.key).Nodup := by
      have heq : ((KvLog.Set k v :: rl).map KvLog.key) = k :: rl.map KvLog.key := by
        simp [KvLog.key]
      rw [heq] at hnd
      exact hnd
    have hknotin : k ∉ rl.map KvLog.key := (List.nodup_cons.mp hnd2).1
    have hfresh2 : ∀ r' ∈ rl, lookupIdx (idx ++ [(k, pos)]) r'.key = none := by
      intro r' hr'
      rw [lookupIdx_append, hfresh r' (List.mem_cons_of_mem _ hr')]
      have hne : k ≠ r'.key := by
        intro hh
        exact hknotin (hh ▸ List.mem_map.mpr ⟨r', hr', rfl⟩)
      simp [lookupIdx, if_neg hne]
    rw [happ]
    simp only [Bool.false_eq_true, if_false]
    rw [ih _ _ _ (fun r' hr' => hsets r' (List.mem_cons_of_mem _ hr'))
      (List.nodup_cons.mp hnd2).2 hfresh2]
    rw [ptrsOf_cons]
    simp [List.append_assoc, KvLog.key]

theorem compact_ok {s : KvStore} {recs : List KvLog} {n : Nat} (h : InvWith s recs n) :
    ∃ recList : List KvLog,
      recList = (sortByOffset s.log_pointer).map (readRecD s) ∧
      s.compact none = .ok ⟨[], encodeAll recList, ptrsOf recList 0, 0⟩ ∧
      InvWith ⟨[], encodeAll recList, ptrsOf recList 0, 0⟩ recList 0 ∧
      (∀ k, lastValue recList k = lastValue recs k) ∧
      recList.map KvLog.key = (sortByOffset s.log_pointer).map Prod.fst := by
  have hnd : NoDupKeys s.log_pointer := by
    rw [h.2.2.2.1]
    exact replayRecs_nodup recs 0 [] 0 (by simp [NoDupKeys])
  have hperm : (sortByOffset s.log_pointer).Perm s.log_pointer := sortByOffset_perm _
  have hndE : ((sortByOffset s.log_pointer).map Prod.fst).Nodup :=
    ((hperm.map Prod.fst).nodup_iff).mpr hnd
  have hread : ∀ e ∈ sortByOffset s.log_pointer, ∃ v,
      s.get_kvlog_from_offset e.2 = .ok (KvLog.Set e.1 v) ∧ KvLog.Set e.1 v ∈ recs := by
    intro e he
    have hm : e ∈ s.log_pointer := hperm.mem_iff.mp he
    have hl : lookupIdx s.log_pointer e.1 = some e.2 := lookupIdx_of_mem hnd hm
    obtain ⟨v, hget, hlast, hmem⟩ := lookup_some_InvWith h hl
    exact ⟨v, hget, hmem⟩
  have hread' : ∀ e ∈ sortByOffset s.log_pointer, ∃ v,
      s.get_kvlog_from_offset e.2 = .ok (KvLog.Set e.1 v) :=
    fun e he => (hread e he).elim (fun v hv => ⟨v, hv.1⟩)
  have hrd : ∀ e ∈ sortByOffset s.log_pointer, ∃ v,
      readRecD s e = KvLog.Set e.1 v ∧ KvLog.Set e.1 v ∈ recs := by
    intro e he
    obtain ⟨v, hget, hmem⟩ := hread e he
    exact ⟨v, by unfold readRecD; rw [hget], hmem⟩
  have hkeys : ((sortByOffset s.log_pointer).map (readRecD s)).map KvLog.key =
      (sortByOffset s.log_pointer).map Prod.fst := by
    rw [List.map_map]
    apply List.map_congr_left
    intro e he
    obtain ⟨v, hre, _⟩ := hrd e he
    simp [Function.comp, hre, KvLog.key]
  have hsets : ∀ r ∈ (sortByOffset s.log_pointer).map (readRecD s), ∃ k v, r = KvLog.Set k v := by
    intro r hr
    obtain ⟨e, he, hre⟩ := List.mem_map.mp hr
    obtain ⟨v, hrde, _⟩ := hrd e he
    exact ⟨e.1, v, by rw [← hre, hrde]⟩
  have hnodupkeys : (((sortByOffset s.log_pointer).map (readRecD s)).map KvLog.key).Nodup := by
    rw [hkeys]
    exact hndE
  have hcomp : s.compact none =
      .ok ⟨[], encodeAll ((sortByOffset s.log_pointer).map (readRecD s)),
           ptrsOf ((sortByOffset s.log_pointer).map (readRecD s)) 0, 0⟩ := by
    unfold KvStore.compact
    rw [if_neg (by simp), if_neg (by simp),
      compactLoop_ok s _ hread' 0 [] [], exbind_ok,
      if_neg (by simp), if_neg (by simp)]
    simp
  have hreplay := replay_sets ((sortByOffset s.log_pointer).map (readRecD s)) 0 [] 0
    hsets hnodupkeys (by intro r hr; rfl)
  refine ⟨(sortByOffset s.log_pointer).map (readRecD s), rfl, hcomp,
    ⟨?_, rfl, ?_, ?_, ?_⟩, ?_, hkeys⟩
  · intro x hx
    obtain ⟨e, he, hre⟩ := List.mem_map.mp hx
    obtain ⟨v, hrde, hmem⟩ := hrd e he
    rw [← hre, hrde]
    exact h.1 _ hmem
  · rw [List.drop_zero]
  · rw [hreplay]
    simp
  · rw [hreplay]
  · intro k
    cases hlk : lookupIdx s.log_pointer k with
    | some off =>
      obtain ⟨v, hget, hlast, hmem⟩ := lookup_some_InvWith h hlk
      have h1 : lastValue recs k = some v := by
        unfold lastValue
        rw [hlast]
      have hmemidx : (k, off) ∈ s.log_pointer := mem_of_lookupIdx hlk
      have hmemsorted : (k, off) ∈ sortByOffset s.log_pointer := hperm.mem_iff.mpr hmemidx
      have hrdk : readRecD s (k, off) = KvLog.Set k v := by
        unfold readRecD
        rw [hget]
      have hmemrl : KvLog.Set k v ∈ (sortByOffset s.log_pointer).map (readRecD s) :=
        List.mem_map.mpr ⟨(k, off), hmemsorted, hrdk⟩
      obtain ⟨p, hp⟩ := lastRec_of_nodup _ 0 hnodupkeys hmemrl
      have h2 : lastValue ((sortByOffset s.log_pointer).map (readRecD s)) k = some v := by
        unfold lastValue
        rw [show (KvLog.Set k v).key = k from rfl] at hp
        rw [hp]
      rw [h1, h2]
    | none =>
      have h1 : lastValue recs k = none := by
        have hlook := lookup_InvWith h k
        unfold lastValue
        cases hL : lastRec recs 0 k none with
        | none => rfl
        | some x =>
          obtain ⟨xr, xp⟩ := x
          cases xr with
          | Set k0 v =>
            rw [hlook, hL] at hlk
            simp at hlk
          | Rm k0 => rfl
      have hnotin : k ∉ (((sortByOffset s.log_pointer).map (readRecD s)).map KvLog.key) := by
        rw [hkeys]
        intro hh
        have : k ∈ s.log_pointer.map Prod.fst := ((hperm.map Prod.fst).mem_iff).mp hh
        exact (lookupIdx_eq_none.mp hlk) this
      have h2 : lastValue ((sortByOffset s.log_pointer).map (readRecD s)) k = none := by
        unfold lastValue
        rw [lastRec_not_mem _ _ _ _ hnotin]
      rw [h1, h2]

theorem applyRecord_set (idx : Index) (k : Key) (v : Value) (pos : Nat) :
    applyRecord idx (KvLog.Set k v) pos = insertIdx idx k pos := rfl

theorem applyRecord_rm (idx : Index) (k : Key) (pos : Nat) :
    applyRecord idx (KvLog.Rm k) pos = removeIdx idx k := rfl

theorem compactLoop_fault_ok {s : KvStore} {fl : Option CompactFault}
    {entries : List (Key × Nat)} :
    ∀ {i : Nat} {newLog : List Nat} {acc : Index} {x : List Nat × Index},
      s.compactLoop fl entries i newLog acc = .ok x →
      s.compactLoop none entries i newLog acc = .ok x := by
  induction entries with
  | nil =>
    intro i newLog acc x h
    exact h
  | cons e rest ih =>
    intro i newLog acc x h
    rw [compactLoop_cons] at h
    by_cases hf : fl = some (.readRec i)
    · rw [if_pos hf] at h
      exact absurd h (by simp)
    · rw [if_neg hf] at h
      rw [compactLoop_cons, if_neg (by simp)]
      cases hg : s.get_kvlog_from_offset e.2 with
      | error err =>
        rw [hg, exbind_error] at h
        exact absurd h (by simp)
      | ok r =>
        rw [hg, exbind_ok] at h
        rw [exbind_ok]
        exact ih h

theorem compact_fault_ok {s : KvStore} {fl : Option CompactFault} {t : KvStore}
    (h : s.compact fl = .ok t) : s.compact none = .ok t := by
  unfold KvStore.compact at h ⊢
  by_cases h1 : fl = some .removeTemp
  · rw [if_pos h1] at h
    exact absurd h (by simp)
  · rw [if_neg h1] at h
    by_cases h2 : fl = some .openTemp
    · rw [if_pos h2] at h
      exact absurd h (by simp)
    · rw [if_neg h2] at h
      rw [if_neg (by simp), if_neg (by simp)]
      cases hl : s.compactLoop fl (sortByOffset s.log_pointer) 0 [] [] with
      | error e =>
        rw [hl, exbind_error] at h
        exact absurd h (by simp)
      | ok p =>
        rw [hl, exbind_ok] at h
        rw [compactLoop_fault_ok hl, exbind_ok]
        by_cases h3 : fl = some .openReader
        · rw [if_pos h3] at h
          exact absurd h (by simp)
        · rw [if_neg h3] at h
          by_cases h4 : fl = some .rename
          · rw [if_pos h4] at h
            exact absurd h (by simp)
          · rw [if_neg h4] at h
            rw [if_neg (by simp), if_neg (by simp)]
            exact h

theorem increment_eq (s : KvStore) (fl : Option CompactFault) :
    s.increment_redundant fl =
      if COMPACT_REDUNDANT_THRESHOLD ≤ s.redundant_count + 1 then
        match ({ s with redundant_count := s.redundant_count + 1 } : KvStore).compact fl with
        | .ok t => t
        | .error _ => { s with redundant_count := s.redundant_count + 1 }
      else { s with redundant_count := s.redundant_count + 1 } := rfl

theorem increment_InvWith {f b : List Nat} {lp : Index} {c : Nat}
    {recs' : List KvLog} {n : Nat}
    (hA : InvWith ⟨f, b, lp, c + 1⟩ recs' n)
    (hn : n ≤ recs'.length) (fl : Option CompactFault) :
    ∃ recs'' n'',
      InvWith (KvStore.increment_redundant ⟨f, b, lp, c⟩ fl) recs'' n'' ∧
      n'' ≤ recs''.length ∧
      ∀ k, lastValue recs'' k = lastValue recs' k := by
  have heq : KvStore.increment_redundant ⟨f, b, lp, c⟩ fl =
      if COMPACT_REDUNDANT_THRESHOLD ≤ c + 1 then
        match (⟨f, b, lp, c + 1⟩ : KvStore).compact fl with
        | .ok t => t
        | .error _ => ⟨f, b, lp, c + 1⟩
      else ⟨f, b, lp, c + 1⟩ := rfl
  rw [heq]
  by_cases hth : COMPACT_REDUNDANT_THRESHOLD ≤ c + 1
  · rw [if_pos hth]
    cases hc : (⟨f, b, lp, c + 1⟩ : KvStore).compact fl with
    | error e => exact ⟨recs', n, hA, hn, fun k => rfl⟩
    | ok t =>
      obtain ⟨recList, hdef, hcomp, hinv, hpres, hkeys⟩ := compact_ok hA
      have ht : t = ⟨[], encodeAll recList, ptrsOf recList 0, 0⟩ :=
        Except.ok.inj ((compact_fault_ok hc).symm.trans hcomp)
      rw [ht]
      exact ⟨recList, 0, hinv, by omega, hpres⟩
  · rw [if_neg hth]
    exact ⟨recs', n, hA, hn, fun k => rfl⟩

theorem set_eq (s : KvStore) (k : Key) (v : Value) (fl : Option CompactFault) :
    s.set k v fl =
      if (insertIdx s.log_pointer k (s.file.length + s.buffer.length)).2 then
        KvStore.increment_redundant
          ⟨s.file, s.buffer ++ (KvLog.Set k v).encode,
            (insertIdx s.log_pointer k (s.file.length + s.buffer.length)).1,
            s.redundant_count⟩ fl
      else
        ⟨s.file, s.buffer ++ (KvLog.Set k v).encode,
          (insertIdx s.log_pointer k (s.file.length + s.buffer.length)).1,
          s.redundant_count⟩ := rfl

theorem remove_eq_present {s : KvStore} {k : Key} (fl : Option CompactFault)
    (hc : (lookupIdx s.log_pointer k).isSome = true) :
    s.remove k fl =
      .ok (if (removeIdx s.log_pointer k).2 then
        KvStore.increment_redundant
          ⟨s.file, s.buffer ++ (KvLog.Rm k).encode,
            (removeIdx s.log_pointer k).1, s.redundant_count⟩ fl
      else
        ⟨s.file, s.buffer ++ (KvLog.Rm k).encode,
          (removeIdx s.log_pointer k).1, s.redundant_count⟩) := by
  unfold KvStore.remove
  rw [if_pos hc]
  rfl

theorem remove_eq_absent {s : KvStore} {k : Key} (fl : Option CompactFault)
    (hc : ¬ (lookupIdx s.log_pointer k).isSome = true) :
    s.remove k fl = .error .KeyNotFound := by
  unfold KvStore.remove
  rw [if_neg hc]

theorem set_InvWith {s : KvStore} {recs : List KvLog} {n : Nat} {k : Key} {v : Value}
    (h : InvWith s recs n) (hn : n ≤ recs.length) (hw : (KvLog.Set k v).wf)
    (fl : Option CompactFault) :
    ∃ recs' n', InvWith (s.set k v fl) recs' n' ∧ n' ≤ recs'.length ∧
      ∀ k', lastValue recs' k' = if k = k' then some v else lastValue recs k' := by
  have hA := InvWith_append h hn (KvLog.Set k v) hw
  rw [applyRecord_set] at hA
  have hlv : ∀ k', lastValue (recs ++ [KvLog.Set k v]) k' =
      if k = k' then some v else lastValue recs k' := by
    intro k'
    rw [lastValue_append]
    by_cases hkk : k = k'
    · simp [KvLog.key, hkk]
    · simp [KvLog.key, hkk]
  have hn' : n ≤ (recs ++ [KvLog.Set k v]).length := by
    rw [List.length_append]
    omega
  rw [set_eq]
  cases hp : (insertIdx s.log_pointer k (s.file.length + s.buffer.length)).2 with
  | false =>
    rw [hp] at hA
    simp only [Bool.false_eq_true, if_false, Nat.add_zero] at hA
    rw [if_neg (by simp)]
    exact ⟨recs ++ [KvLog.Set k v], n, hA, hn', hlv⟩
  | true =>
    rw [hp] at hA
    simp only [if_true, if_pos] at hA
    rw [if_pos rfl]
    obtain ⟨recs'', n'', hI, hn'', hpres⟩ := increment_InvWith hA hn' fl
    exact ⟨recs'', n'', hI, hn'', fun k' => (hpres k').trans (hlv k')⟩

theorem remove_InvWith {s : KvStore} {recs : List KvLog} {n : Nat} {k : Key} {t : KvStore}
    (h : InvWith s recs n) (hn : n ≤ recs.length) (fl : Option CompactFault)
    (hok : s.remove k fl = .ok t) :
    ∃ recs' n', InvWith t recs' n' ∧ n' ≤ recs'.length ∧
      ∀ k', lastValue recs' k' = if k = k' then none else lastValue recs k' := by
  by_cases hc : (lookupIdx s.log_pointer k).isSome = true
  · obtain ⟨off, hoff⟩ := Option.isSome_iff_exists.mp hc
    obtain ⟨v, hget, hlast, hmem⟩ := lookup_some_InvWith h hoff
    have hw : (KvLog.Rm k).wf := (h.1 _ hmem).1
    have hA := InvWith_append h hn (KvLog.Rm k) hw
    rw [applyRecord_rm] at hA
    have hp2 : (removeIdx s.log_pointer k).2 = true := by
      rw [removeIdx_snd, hoff]
      rfl
    rw [remove_eq_present fl hc, hp2, if_pos rfl] at hok
    have ht := (Except.ok.inj hok).symm
    rw [hp2, if_pos rfl] at hA
    have hlv : ∀ k', lastValue (recs ++ [KvLog.Rm k]) k' =
        if k = k' then none else lastValue recs k' := by
      intro k'
      rw [lastValue_append]
      by_cases hkk : k = k'
      · simp [KvLog.key, hkk]
      · simp [KvLog.key, hkk]
    have hn' : n ≤ (recs ++ [KvLog.Rm k]).length := by
      rw [List.length_append]
      omega
    obtain ⟨recs'', n'', hI, hn'', hpres⟩ := increment_InvWith hA hn' fl
    rw [ht]
    exact ⟨recs'', n'', hI, hn'', fun k' => (hpres k').trans (hlv k')⟩
  · rw [remove_eq_absent fl hc] at hok
    exact absurd hok (by simp)

theorem openStore_InvWith {recs : List KvLog} (h : wfAll recs) :
    ∃ s, KvStore.openStore (encodeAll recs) = some s ∧ InvWith s recs recs.length := by
  refine ⟨_, openStore_encodeAll recs h, ⟨h, ?_, ?_, rfl, rfl⟩⟩
  · show encodeAll recs = encodeAll (recs.take recs.length)
    rw [List.take_length]
  · show [] = encodeAll (recs.drop recs.length)
    rw [List.drop_length]
    rfl

theorem InvWith_norm {s : KvStore} {recs : List KvLog} {n : Nat} (h : InvWith s recs n) :
    InvWith s recs (min n recs.length) ∧ min n recs.length ≤ recs.length := by
  obtain ⟨hwf, hf, hb, hlp, hcnt⟩ := h
  by_cases hn : n ≤ recs.length
  · rw [min_eq_left hn]
    exact ⟨⟨hwf, hf, hb, hlp, hcnt⟩, hn⟩
  · have hle : recs.length ≤ n := le_of_not_le hn
    rw [min_eq_right hle]
    refine ⟨⟨hwf, ?_, ?_, hlp, hcnt⟩, le_refl _⟩
    · rw [hf, List.take_of_length_le hle, List.take_length]
    · rw [hb, List.drop_eq_nil_of_le hle, List.drop_length]

theorem StoreInvN (s : KvStore) : StoreInv s ↔ ∃ recs n, InvWith s recs n ∧ n ≤ recs.length := by
  constructor
  · intro h
    obtain ⟨recs, n, hI⟩ := h
    obtain ⟨hI', hle⟩ := InvWith_norm hI
    exact ⟨recs, _, hI', hle⟩
  · intro h
    obtain ⟨recs, n, hI, _⟩ := h
    exact ⟨recs, n, hI⟩

theorem liveApply_set (s : KvStore) (k : Key) (v : Value) :
    liveApply s (KvLog.Set k v) = some (s.set k v none) := rfl

theorem liveApply_rm (s : KvStore) (k : Key) :
    liveApply s (KvLog.Rm k) = (s.remove k none).toOption := rfl

theorem liveRunAux_Inv (recs : List KvLog) :
    ∀ s0 : KvStore, wfAll recs →
      (∃ recs0 n0, InvWith s0 recs0 n0 ∧ n0 ≤ recs0.length) →
      ∀ {s : KvStore}, List.foldlM liveApply s0 recs = some s →
        ∃ recs' n', InvWith s recs' n' ∧ n' ≤ recs'.length := by
  induction recs with
  | nil =>
    intro s0 _ h0 s hs
    have : s0 = s := by simpa [List.foldlM] using hs
    rw [← this]
    exact h0
  | cons r rs ih =>
    intro s0 hwf h0 s hs
    have hs' : liveApply s0 r >>= (fun b2 => rs.foldlM liveApply b2) = some s := hs
    obtain ⟨s1, h1, h2⟩ := Option.bind_eq_some.mp hs'
    obtain ⟨recs0, n0, hI, hn⟩ := h0
    have hwr : r.wf := hwf r (List.mem_cons_self r rs)
    have hwrs : wfAll rs := fun x hx => hwf x (List.mem_cons_of_mem r hx)
    cases r with
    | Set k v =>
      rw [liveApply_set] at h1
      obtain ⟨recs1, n1, hI1, hn1, _⟩ := set_InvWith hI hn hwr none
      rw [Option.some.inj h1] at hI1
      exact ih s1 hwrs ⟨recs1, n1, hI1, hn1⟩ h2
    | Rm k =>
      rw [liveApply_rm] at h1
      have hrm : s0.remove k none = .ok s1 := by
        cases hr : s0.remove k none with
        | ok t =>
          rw [hr] at h1
          rw [Option.some.inj h1]
        | error e =>
          rw [hr] at h1
          exact absurd h1 (by simp [Except.toOption])
      obtain ⟨recs1, n1, hI1, hn1, _⟩ := remove_InvWith hI hn none hrm
      exact ih s1 hwrs ⟨recs1, n1, hI1, hn1⟩ h2

theorem liveRun_Inv {recs : List KvLog} (hwf : wfAll recs) {s : KvStore}
    (h : liveRun recs = some s) :
    ∃ recs' n', InvWith s recs' n' ∧ n' ≤ recs'.length := by
  exact liveRunAux_Inv recs emptyStore hwf
    ⟨[], 0, InvWith_empty, by simp⟩ h

theorem InvWith_flush {s : KvStore} {recs : List KvLog} {n : Nat} (h : InvWith s recs n) :
    s.file ++ s.buffer = encodeAll recs := by
  rw [h.2.1, h.2.2.1, ← encodeAll_append, List.take_append_drop]

theorem openStore_of_InvWith {s : KvStore} {recs : List KvLog} {n : Nat} (h : InvWith s recs n) :
    KvStore.openStore (s.file ++ s.buffer) =
      some ⟨s.file ++ s.buffer, [], s.log_pointer, s.redundant_count⟩ := by
  rw [InvWith_flush h, openStore_encodeAll recs h.1, h.2.2.2.1, h.2.2.2.2]

theorem removeIdx_fresh (idx : Index) (k : Key) (h : lookupIdx idx k = none) :
    removeIdx idx k = (idx, false) := by
  induction idx with
  | nil => rfl
  | cons e rest ih =>
    obtain ⟨k', v'⟩ := e
    rw [lookupIdx] at h
    by_cases h2 : k' = k
    · rw [if_pos h2] at h
      exact absurd h (by simp)
    · rw [if_neg h2] at h
      simp [removeIdx, if_neg h2, ih h]

theorem lastIsSet_isSome (recs : List KvLog) (k : Key) :
    lastIsSet recs k = (lastValue recs k).isSome := by
  unfold lastIsSet lastValue
  cases lastRec recs 0 k none with
  | none => rfl
  | some x =>
    obtain ⟨xr, xp⟩ := x
    cases xr <;> rfl

theorem get_kvlog_no_corruption (s : KvStore) (off : Nat) :
    s.get_kvlog_from_offset off ≠ .error .Corruption := by
  unfold KvStore.get_kvlog_from_offset
  by_cases hle : s.file.length ≤ off
  · rw [if_pos hle]
    cases KvLog.decode (s.buffer.drop (off - s.file.length)) <;> simp
  · rw [if_neg hle]
    cases KvLog.decode (s.file.drop off) <;> simp

theorem increment_eq2 (f b : List Nat) (lp : Index) (c : Nat) (fl : Option CompactFault) :
    KvStore.increment_redundant ⟨f, b, lp, c⟩ fl =
      if COMPACT_REDUNDANT_THRESHOLD ≤ c + 1 then
        match (⟨f, b, lp, c + 1⟩ : KvStore).compact fl with
        | .ok t => t
        | .error _ => ⟨f, b, lp, c + 1⟩
      else ⟨f, b, lp, c + 1⟩ := rfl

/-- C1: for every finite sequence of log records, the index that open
rebuilds by a single linear scan of the encoded log equals the index (and
redundancy count) that live set and remove calls produce when applied in
log order from a fresh store; the scan of any well-formed encoded log
succeeds, and replaying a Remove record whose key is absent from the index
is a no-op that raises no error, unlike live remove which fails on an
absent key. -/
theorem claim_c1_replay_matches_live (recs : List KvLog) (hwf : wfAll recs) :
    (∀ s : KvStore, liveRun recs = some s →
      KvStore.openStore (s.file ++ s.buffer) =
        some ⟨s.file ++ s.buffer, [], s.log_pointer, s.redundant_count⟩) ∧
    (KvStore.openStore (encodeAll recs) =
      some ⟨encodeAll recs, [], (replayRecs recs 0 [] 0).1, (replayRecs recs 0 [] 0).2⟩) ∧
    (∀ (idx : Index) (pos : Nat) (k : Key),
      lookupIdx idx k = none → applyRecord idx (KvLog.Rm k) pos = (idx, false)) := by
  refine ⟨?_, openStore_encodeAll recs hwf, ?_⟩
  · intro s hs
    obtain ⟨recs', n', hI, _⟩ := liveRun_Inv hwf hs
    exact openStore_of_InvWith hI
  · intro idx pos k h
    rw [applyRecord_rm]
    exact removeIdx_fresh idx k h

theorem claim_c1_witness :
    KvStore.openStore (encodeAll [KvLog.Set [1] [10], KvLog.Rm [1], KvLog.Rm [1]]) =
      some ⟨encodeAll [KvLog.Set [1] [10], KvLog.Rm [1], KvLog.Rm [1]], [],
        (replayRecs [KvLog.Set [1] [10], KvLog.Rm [1], KvLog.Rm [1]] 0 [] 0).1,
        (replayRecs [KvLog.Set [1] [10], KvLog.Rm [1], KvLog.Rm [1]] 0 [] 0).2⟩ :=
  (claim_c1_replay_matches_live [KvLog.Set [1] [10], KvLog.Rm [1], KvLog.Rm [1]]
    (by decide)).2.1

/-- C2: after every operation the store invariant holds — open on a
well-formed encoded log establishes it, set preserves it, a successful
remove preserves it (get mutates nothing) — and under the invariant a key
is present in the index iff the most recent record for it in the logical
stream is a Set, and the record decoded at the key's stored offset is a
Set record carrying that same key. -/
theorem claim_c2_index_invariant :
    (∀ (recs : List KvLog) (s : KvStore), wfAll recs →
      KvStore.openStore (encodeAll recs) = some s → StoreInv s) ∧
    (∀ (s : KvStore) (k : Key) (v : Value) (fl : Option CompactFault),
      StoreInv s → (KvLog.Set k v).wf → StoreInv (s.set k v fl)) ∧
    (∀ (s t : KvStore) (k : Key) (fl : Option CompactFault),
      StoreInv s → s.remove k fl = .ok t → StoreInv t) ∧
    (∀ (s : KvStore) (recs : List KvLog) (n : Nat), InvWith s recs n →
      ∀ k : Key,
        ((lookupIdx s.log_pointer k).isSome = lastIsSet recs k) ∧
        (∀ off, lookupIdx s.log_pointer k = some off →
          ∃ v, s.get_kvlog_from_offset off = .ok (KvLog.Set k v))) := by
  refine ⟨?_, ?_, ?_, ?_⟩
  · intro recs s hwf hopen
    obtain ⟨s', hs', hI⟩ := openStore_InvWith hwf
    have : s' = s := Option.some.inj (hs'.symm.trans hopen)
    rw [← this]
    exact ⟨recs, recs.length, hI⟩
  · intro s k v fl hs hw
    obtain ⟨recs, n, hI, hn⟩ := (StoreInvN s).mp hs
    obtain ⟨recs', n', hI', _, _⟩ := set_InvWith hI hn hw fl
    exact ⟨recs', n', hI'⟩
  · intro s t k fl hs hok
    obtain ⟨recs, n, hI, hn⟩ := (StoreInvN s).mp hs
    obtain ⟨recs', n', hI', _, _⟩ := remove_InvWith hI hn fl hok
    exact ⟨recs', n', hI'⟩
  · intro s recs n hI k
    refine ⟨isSome_lookup_InvWith hI k, ?_⟩
    intro off hoff
    obtain ⟨v, hget, -, -⟩ := lookup_some_InvWith hI hoff
    exact ⟨v, hget⟩

theorem claim_c2_witness :
    StoreInv ⟨encodeAll [KvLog.Set [1] [2]], [],
      (replayRecs [KvLog.Set [1] [2]] 0 [] 0).1,
      (replayRecs [KvLog.Set [1] [2]] 0 [] 0).2⟩ :=
  claim_c2_index_invariant.1 [KvLog.Set [1] [2]] _ (by decide)
    (openStore_encodeAll [KvLog.Set [1] [2]] (by decide))

/-- C3: compaction is all-or-nothing up to the atomic rename.  For every
store and every fault at a compaction step other than the rename: if
compaction fails, increment_redundant keeps exactly the pre-compaction
state (same log file, buffer, index; the counter holds only the increment
that preceded the compaction attempt and is not reset); remove never
surfaces any error other than KeyNotFound (set returns a plain store and
by its type cannot surface an error at all); and a set or remove whose
triggered compaction fails still returns normally with the appended,
pre-compaction state. -/
theorem claim_c3_compaction_transactional (s : KvStore) (f : CompactFault)
    (hf : f ≠ CompactFault.rename) :
    (∀ s' : KvStore, ∀ e : ErrorKind,
      KvStore.compact ⟨s'.file, s'.buffer, s'.log_pointer, s'.redundant_count + 1⟩ (some f) =
        .error e →
      s'.increment_redundant (some f) =
        ⟨s'.file, s'.buffer, s'.log_pointer, s'.redundant_count + 1⟩) ∧
    (∀ (k : Key) (e : ErrorKind), s.remove k (some f) = .error e → e = .KeyNotFound) ∧
    (∀ (k : Key) (v : Value) (e : ErrorKind),
      (insertIdx s.log_pointer k (s.file.length + s.buffer.length)).2 = true →
      KvStore.compact ⟨s.file, s.buffer ++ (KvLog.Set k v).encode,
        (insertIdx s.log_pointer k (s.file.length + s.buffer.length)).1,
        s.redundant_count + 1⟩ (some f) = .error e →
      s.set k v (some f) = ⟨s.file, s.buffer ++ (KvLog.Set k v).encode,
        (insertIdx s.log_pointer k (s.file.length + s.buffer.length)).1,
        s.redundant_count + 1⟩) ∧
    (∀ (k : Key) (e : ErrorKind),
      (lookupIdx s.log_pointer k).isSome = true →
      KvStore.compact ⟨s.file, s.buffer ++ (KvLog.Rm k).encode,
        (removeIdx s.log_pointer k).1, s.redundant_count + 1⟩ (some f) = .error e →
      s.remove k (some f) = .ok ⟨s.file, s.buffer ++ (KvLog.Rm k).encode,
        (removeIdx s.log_pointer k).1, s.redundant_count + 1⟩) := by
  refine ⟨?_, ?_, ?_, ?_⟩
  · intro s' e hc
    have heq := increment_eq2 s'.file s'.buffer s'.log_pointer s'.redundant_count (some f)
    have hs' : (⟨s'.file, s'.buffer, s'.log_pointer, s'.redundant_count⟩ : KvStore) = s' := rfl
    rw [hs'] at heq
    rw [heq]
    by_cases hth : COMPACT_REDUNDANT_THRESHOLD ≤ s'.redundant_count + 1
    · rw [if_pos hth, hc]
    · rw [if_neg hth]
  · intro k e h
    by_cases hc : (lookupIdx s.log_pointer k).isSome = true
    · rw [remove_eq_present (some f) hc] at h
      exact absurd h (by simp)
    · rw [remove_eq_absent (some f) hc] at h
      exact (Except.error.inj h).symm
  · intro k v e hp hc
    rw [set_eq, hp, if_pos rfl, increment_eq2]
    by_cases hth : COMPACT_REDUNDANT_THRESHOLD ≤ s.redundant_count + 1
    · rw [if_pos hth, hc]
    · rw [if_neg hth]
  · intro k e hc hcomp
    have hp2 : (removeIdx s.log_pointer k).2 = true := by
      obtain ⟨off, hoff⟩ := Option.isSome_iff_exists.mp hc
      rw [removeIdx_snd, hoff]
      rfl
    rw [remove_eq_present (some f) hc, hp2, if_pos rfl, increment_eq2]
    by_cases hth : COMPACT_REDUNDANT_THRESHOLD ≤ s.redundant_count + 1
    · rw [if_pos hth, hcomp]
    · rw [if_neg hth]

theorem claim_c3_witness :
    KvStore.increment_redundant ⟨[], [], [], 5⟩ (some CompactFault.openTemp) =
      ⟨[], [], [], 6⟩ :=
  (claim_c3_compaction_transactional ⟨[], [], [], 5⟩ CompactFault.openTemp (by decide)).1
    ⟨[], [], [], 5⟩ ErrorKind.Io (by decide)

/-- C4: a fault-free compaction of any store satisfying the invariant
succeeds and preserves semantics: every key's get afterwards returns the
same result as before (in particular every live key keeps its value), the
new log is the concatenated encoding of exactly one record per live key,
written in ascending order of the old offsets (the sorted entries are a
permutation of the index, ordered by offset), and the redundancy counter
of the resulting store is 0. -/
theorem claim_c4_compaction_preserves (s : KvStore) (recs : List KvLog) (n : Nat)
    (h : InvWith s recs n) :
    ∃ recList : List KvLog,
      s.compact none = .ok ⟨[], encodeAll recList, ptrsOf recList 0, 0⟩ ∧
      recList = (sortByOffset s.log_pointer).map (readRecD s) ∧
      (∀ k, (⟨[], encodeAll recList, ptrsOf recList 0, 0⟩ : KvStore).get k = s.get k) ∧
      recList.map KvLog.key = (sortByOffset s.log_pointer).map Prod.fst ∧
      (sortByOffset s.log_pointer).Perm s.log_pointer ∧
      List.Pairwise (fun a b => a.2 ≤ b.2) (sortByOffset s.log_pointer) := by
  obtain ⟨recList, hdef, hcomp, hinv, hpres, hkeys⟩ := compact_ok h
  refine ⟨recList, hcomp, hdef, ?_, hkeys, sortByOffset_perm _, sortByOffset_pairwise _⟩
  intro k
  rw [get_InvWith hinv k, get_InvWith h k, hpres k]

theorem claim_c4_witness :
    ∃ recList : List KvLog,
      KvStore.compact ⟨encodeAll [KvLog.Set [1] [2]], [], [([1], 0)], 0⟩ none =
        .ok ⟨[], encodeAll recList, ptrsOf recList 0, 0⟩ ∧
      recList = (sortByOffset ([([1], 0)] : Index)).map
        (readRecD ⟨encodeAll [KvLog.Set [1] [2]], [], [([1], 0)], 0⟩) ∧
      (∀ k, (⟨[], encodeAll recList, ptrsOf recList 0, 0⟩ : KvStore).get k =
        (⟨encodeAll [KvLog.Set [1] [2]], [], [([1], 0)], 0⟩ : KvStore).get k) ∧
      recList.map KvLog.key = (sortByOffset ([([1], 0)] : Index)).map Prod.fst ∧
      (sortByOffset ([([1], 0)] : Index)).Perm [([1], 0)] ∧
      List.Pairwise (fun a b => a.2 ≤ b.2) (sortByOffset ([([1], 0)] : Index)) :=
  claim_c4_compaction_preserves ⟨encodeAll [KvLog.Set [1] [2]], [], [([1], 0)], 0⟩
    [KvLog.Set [1] [2]] 1 ⟨by decide, rfl, rfl, rfl, rfl⟩

/-- C5: an absolute offset is resolved against the two-region log: below
the flushed file length it is read from the file at that offset, otherwise
from the write buffer at offset minus the flushed length; the offset a set
hands out is the file length plus the buffer length before the write, and
a get immediately after a set with no intervening flush returns the value
from the unflushed buffer region. -/
theorem claim_c5_offset_resolution (s : KvStore) (recs : List KvLog) (n : Nat)
    (h : InvWith s recs n) (k : Key) (v : Value) (hw : (KvLog.Set k v).wf) :
    (∀ o, o < s.file.length →
      s.get_kvlog_from_offset o =
        match KvLog.decode (s.file.drop o) with
        | some p => .ok p.1
        | none => .error .Serde) ∧
    (∀ o, s.file.length ≤ o →
      s.get_kvlog_from_offset o =
        match KvLog.decode (s.buffer.drop (o - s.file.length)) with
        | some p => .ok p.1
        | none => .error .Serde) ∧
    ((s.set k v none).get k = .ok (some v)) ∧
    (s.redundant_count + 1 < COMPACT_REDUNDANT_THRESHOLD →
      lookupIdx (s.set k v none).log_pointer k = some (s.file.length + s.buffer.length)) := by
  obtain ⟨hI, hn⟩ := InvWith_norm h
  refine ⟨?_, ?_, ?_, ?_⟩
  · intro o ho
    unfold KvStore.get_kvlog_from_offset
    rw [if_neg (by omega : ¬ s.file.length ≤ o)]
  · intro o ho
    unfold KvStore.get_kvlog_from_offset
    rw [if_pos ho]
  · obtain ⟨recs', n', hI', _, hpres⟩ := set_InvWith hI hn hw none
    rw [get_InvWith hI' k, hpres k, if_pos rfl]
  · intro hth
    rw [set_eq]
    cases hp : (insertIdx s.log_pointer k (s.file.length + s.buffer.length)).2 with
    | false =>
      rw [if_neg (by simp)]
      exact lookupIdx_insertIdx_self s.log_pointer k (s.file.length + s.buffer.length)
    | true =>
      rw [if_pos rfl, increment_eq2, if_neg (by omega : ¬ COMPACT_REDUNDANT_THRESHOLD ≤ s.redundant_count + 1)]
      exact lookupIdx_insertIdx_self s.log_pointer k (s.file.length + s.buffer.length)

theorem claim_c5_witness :
    (∀ o, o < (⟨encodeAll [KvLog.Set [5] [6]], [], [([5], 0)], 0⟩ : KvStore).file.length →
      (⟨encodeAll [KvLog.Set [5] [6]], [], [([5], 0)], 0⟩ : KvStore).get_kvlog_from_offset o =
        match KvLog.decode ((⟨encodeAll [KvLog.Set [5] [6]], [], [([5], 0)], 0⟩ : KvStore).file.drop o) with
        | some p => .ok p.1
        | none => .error .Serde) ∧
    (∀ o, (⟨encodeAll [KvLog.Set [5] [6]], [], [([5], 0)], 0⟩ : KvStore).file.length ≤ o →
      (⟨encodeAll [KvLog.Set [5] [6]], [], [([5], 0)], 0⟩ : KvStore).get_kvlog_from_offset o =
        match KvLog.decode ((⟨encodeAll [KvLog.Set [5] [6]], [], [([5], 0)], 0⟩ : KvStore).buffer.drop
            (o - (⟨encodeAll [KvLog.Set [5] [6]], [], [([5], 0)], 0⟩ : KvStore).file.length)) with
        | some p => .ok p.1
        | none => .error .Serde) ∧
    (((⟨encodeAll [KvLog.Set [5] [6]], [], [([5], 0)], 0⟩ : KvStore).set [7] [8] none).get [7] =
      .ok (some [8])) ∧
    ((⟨encodeAll [KvLog.Set [5] [6]], [], [([5], 0)], 0⟩ : KvStore).redundant_count + 1 <
        COMPACT_REDUNDANT_THRESHOLD →
      lookupIdx ((⟨encodeAll [KvLog.Set [5] [6]], [], [([5], 0)], 0⟩ : KvStore).set [7] [8]
          none).log_pointer [7] =
        some ((⟨encodeAll [KvLog.Set [5] [6]], [], [([5], 0)], 0⟩ : KvStore).file.length +
          (⟨encodeAll [KvLog.Set [5] [6]], [], [([5], 0)], 0⟩ : KvStore).buffer.length)) :=
  claim_c5_offset_resolution ⟨encodeAll [KvLog.Set [5] [6]], [], [([5], 0)], 0⟩
    [KvLog.Set [5] [6]] 1 ⟨by decide, rfl, rfl, rfl, rfl⟩ [7] [8] (by decide)

/-- C6: overwrite semantics — after set of v1 then set of v2 on the same
key, get returns v2 (the most recent value wins); and for a key absent
from the index, get returns no value as a successful result, not an
error. -/
theorem claim_c6_overwrite_semantics (s : KvStore) (recs : List KvLog) (n : Nat)
    (h : InvWith s recs n) (k : Key) (v1 v2 : Value)
    (h1 : (KvLog.Set k v1).wf) (h2 : (KvLog.Set k v2).wf) :
    (((s.set k v1 none).set k v2 none).get k = .ok (some v2)) ∧
    (∀ k' : Key, lookupIdx s.log_pointer k' = none → s.get k' = .ok none) := by
  obtain ⟨hI, hn⟩ := InvWith_norm h
  constructor
  · obtain ⟨recs1, n1, hI1, hn1, hpres1⟩ := set_InvWith hI hn h1 none
    obtain ⟨recs2, n2, hI2, hn2, hpres2⟩ := set_InvWith hI1 hn1 h2 none
    rw [get_InvWith hI2 k, hpres2 k, if_pos rfl]
  · intro k' hk'
    exact get_eq_none hk'

theorem claim_c6_witness :
    (((⟨[], [], [], 0⟩ : KvStore).set [1] [2] none).set [1] [3] none).get [1] =
        .ok (some [3]) ∧
    (∀ k' : Key, lookupIdx (⟨[], [], [], 0⟩ : KvStore).log_pointer k' = none →
      (⟨[], [], [], 0⟩ : KvStore).get k' = .ok none) :=
  claim_c6_overwrite_semantics ⟨[], [], [], 0⟩ [] 0
    ⟨by decide, rfl, rfl, rfl, rfl⟩ [1] [2] [3] (by decide) (by decide)

/-- C7: remove fails with KeyNotFound exactly when the key is absent from
the index (appending nothing — a failing remove returns only the error and
produces no new state); when the key is present, remove appends a Rm
record, deletes the key and bumps the redundancy counter (shown exactly
when the bump stays below the compaction threshold), and afterwards get
returns no value and a second remove of the same key fails with
KeyNotFound. -/
theorem claim_c7_remove_semantics (s : KvStore) (recs : List KvLog) (n : Nat)
    (h : InvWith s recs n) (k : Key) :
    (lookupIdx s.log_pointer k = none ↔ s.remove k none = .error .KeyNotFound) ∧
    (∀ t, s.remove k none = .ok t →
      t.get k = .ok none ∧ t.remove k none = .error .KeyNotFound) ∧
    (∀ off, lookupIdx s.log_pointer k = some off →
      s.redundant_count + 1 < COMPACT_REDUNDANT_THRESHOLD →
      s.remove k none = .ok ⟨s.file, s.buffer ++ (KvLog.Rm k).encode,
        (removeIdx s.log_pointer k).1, s.redundant_count + 1⟩) := by
  obtain ⟨hI, hn⟩ := InvWith_norm h
  refine ⟨?_, ?_, ?_⟩
  · constructor
    · intro hk
      exact remove_eq_absent none (by rw [hk]; simp)
    · intro hr
      cases hk : lookupIdx s.log_pointer k with
      | none => rfl
      | some off =>
        rw [remove_eq_present none (by rw [hk]; rfl)] at hr
        exact absurd hr (by simp)
  · intro t hok
    obtain ⟨recs', n', hI', hn', hpres⟩ := remove_InvWith hI hn none hok
    have hlvt : lastValue recs' k = none := by rw [hpres k, if_pos rfl]
    constructor
    · rw [get_InvWith hI' k, hlvt]
    · have hlk : lookupIdx t.log_pointer k = none := by
        have hiss := isSome_lookup_InvWith hI' k
        rw [lastIsSet_isSome, hlvt] at hiss
        cases hcase : lookupIdx t.log_pointer k with
        | none => rfl
        | some o =>
          rw [hcase] at hiss
          simp at hiss
      exact remove_eq_absent none (by rw [hlk]; simp)
  · intro off hoff hth
    have hc : (lookupIdx s.log_pointer k).isSome = true := by rw [hoff]; rfl
    have hp2 : (removeIdx s.log_pointer k).2 = true := by
      rw [removeIdx_snd, hoff]
      rfl
    rw [remove_eq_present none hc, hp2, if_pos rfl, increment_eq2,
      if_neg (by omega : ¬ COMPACT_REDUNDANT_THRESHOLD ≤ s.redundant_count + 1)]

theorem claim_c7_witness :
    (lookupIdx (⟨encodeAll [KvLog.Set [9] [1]], [], [([9], 0)], 0⟩ : KvStore).log_pointer [9] =
        none ↔
      (⟨encodeAll [KvLog.Set [9] [1]], [], [([9], 0)], 0⟩ : KvStore).remove [9] none =
        .error .KeyNotFound) ∧
    (∀ t, (⟨encodeAll [KvLog.Set [9] [1]], [], [([9], 0)], 0⟩ : KvStore).remove [9] none =
        .ok t →
      t.get [9] = .ok none ∧ t.remove [9] none = .error .KeyNotFound) ∧
    (∀ off, lookupIdx (⟨encodeAll [KvLog.Set [9] [1]], [], [([9], 0)], 0⟩ :
        KvStore).log_pointer [9] = some off →
      (⟨encodeAll [KvLog.Set [9] [1]], [], [([9], 0)], 0⟩ : KvStore).redundant_count + 1 <
        COMPACT_REDUNDANT_THRESHOLD →
      (⟨encodeAll [KvLog.Set [9] [1]], [], [([9], 0)], 0⟩ : KvStore).remove [9] none =
        .ok ⟨(⟨encodeAll [KvLog.Set [9] [1]], [], [([9], 0)], 0⟩ : KvStore).file,
          (⟨encodeAll [KvLog.Set [9] [1]], [], [([9], 0)], 0⟩ : KvStore).buffer ++
            (KvLog.Rm [9]).encode,
          (removeIdx (⟨encodeAll [KvLog.Set [9] [1]], [], [([9], 0)], 0⟩ :
            KvStore).log_pointer [9]).1,
          (⟨encodeAll [KvLog.Set [9] [1]], [], [([9], 0)], 0⟩ : KvStore).redundant_count + 1⟩) :=
  claim_c7_remove_semantics ⟨encodeAll [KvLog.Set [9] [1]], [], [([9], 0)], 0⟩
    [KvLog.Set [9] [1]] 1 ⟨by decide, rfl, rfl, rfl, rfl⟩ [9]

/-- C8 counterexample: the claim as stated is false on the code.  In a
store whose index maps key 0 to offset 0 while the record decoded there is
Set with the different key 1, get does not fail with Corruption — the
key-match check is commented out in lib.rs (lines 190 to 193) — and the
foreign record's value is returned successfully. -/
theorem claim_c8_counterexample :
    lookupIdx (⟨(KvLog.Set [1] [9]).encode, [], [([0], 0)], 0⟩ :
      KvStore).log_pointer [0] = some 0 ∧
    (⟨(KvLog.Set [1] [9]).encode, [], [([0], 0)], 0⟩ : KvStore).get_kvlog_from_offset 0 =
      .ok (KvLog.Set [1] [9]) ∧
    ([0] : Key) ≠ [1] ∧
    (⟨(KvLog.Set [1] [9]).encode, [], [([0], 0)], 0⟩ : KvStore).get [0] = .ok (some [9]) ∧
    (⟨(KvLog.Set [1] [9]).encode, [], [([0], 0)], 0⟩ : KvStore).get [0] ≠
      .error .Corruption := by
  decide

/-- C8 amended: for every key present in the index, get decodes the record
at the stored offset and fails with Corruption exactly when that record is
a Rm; a decoded Set record is returned successfully even when its key
differs from the requested one (the key-match check is commented out), and
a read error is propagated unchanged. -/
theorem claim_c8_get_corruption (s : KvStore) (k : Key) (off : Nat)
    (h : lookupIdx s.log_pointer k = some off) :
    (s.get k = .error .Corruption ↔ ∃ k', s.get_kvlog_from_offset off = .ok (KvLog.Rm k')) ∧
    (∀ k' v, s.get_kvlog_from_offset off = .ok (KvLog.Set k' v) → s.get k = .ok (some v)) ∧
    (∀ e, s.get_kvlog_from_offset off = .error e → s.get k = .error e) := by
  refine ⟨⟨?_, ?_⟩, ?_, ?_⟩
  · intro hcor
    rw [get_eq_some h] at hcor
    cases hg : s.get_kvlog_from_offset off with
    | ok r =>
      cases r with
      | Set k' v =>
        rw [hg] at hcor
        exact absurd hcor (by simp)
      | Rm k' => exact ⟨k', rfl⟩
    | error e =>
      rw [hg] at hcor
      have : e = ErrorKind.Corruption := Except.error.inj hcor
      rw [this] at hg
      exact absurd hg (get_kvlog_no_corruption s off)
  · intro hrm
    obtain ⟨k', hk'⟩ := hrm
    rw [get_eq_some h, hk']
  · intro k' v hg
    rw [get_eq_some h, hg]
  · intro e hg
    rw [get_eq_some h, hg]

theorem claim_c8_witness :
    ((⟨(KvLog.Set [3] [4]).encode, [], [([3], 0)], 0⟩ : KvStore).get [3] =
        .error .Corruption ↔
      ∃ k', (⟨(KvLog.Set [3] [4]).encode, [], [([3], 0)], 0⟩ :
        KvStore).get_kvlog_from_offset 0 = .ok (KvLog.Rm k')) ∧
    (∀ k' v, (⟨(KvLog.Set [3] [4]).encode, [], [([3], 0)], 0⟩ :
        KvStore).get_kvlog_from_offset 0 = .ok (KvLog.Set k' v) →
      (⟨(KvLog.Set [3] [4]).encode, [], [([3], 0)], 0⟩ : KvStore).get [3] = .ok (some v)) ∧
    (∀ e, (⟨(KvLog.Set [3] [4]).encode, [], [([3], 0)], 0⟩ :
        KvStore).get_kvlog_from_offset 0 = .error e →
      (⟨(KvLog.Set [3] [4]).encode, [], [([3], 0)], 0⟩ : KvStore).get [3] = .error e) :=
  claim_c8_get_corruption ⟨(KvLog.Set [3] [4]).encode, [], [([3], 0)], 0⟩ [3] 0 (by decide)

/-- C9: the claim matches lib.rs and the spec (four error kinds: Io,
Serde alias Serialization, KeyNotFound, Corruption) but the declared enum
in src/error.rs has exactly two variants, Io and Serde; lib.rs itself
constructs ErrorKind::KeyNotFound (line 267) and ErrorKind::Corruption
(line 196), so the crate as given cannot compile — the enum contradicts
its own callers, a bug in error.rs.  The theorem shows the evaluation at
the failing input (remove on an empty store needs KeyNotFound) and that
the declared enum offers only Io and Serde. -/
theorem claim_c9_errorkind_mismatch :
    KvStore.remove emptyStore [0] none = .error ErrorKind.KeyNotFound ∧
    (∀ d : DeclaredErrorKind, d = DeclaredErrorKind.Io ∨ d = DeclaredErrorKind.Serde) := by
  constructor
  · decide
  · intro d
    cases d
    · exact Or.inl rfl
    · exact Or.inr rfl

/-- C10: compaction never runs during open — even when the redundancy
counter rebuilt from the log is at or above COMPACT_REDUNDANT_THRESHOLD,
open returns the scanned bytes as the unchanged log file with an empty
buffer — and compaction can only be entered through increment_redundant,
which is invoked exactly by a set that overwrites an existing key or by a
successful remove: a set of a fresh key and a failed remove leave the
counter untouched and never compact. -/
theorem claim_c10_open_never_compacts :
    (∀ (bytes : List Nat) (s : KvStore), KvStore.openStore bytes = some s →
      COMPACT_REDUNDANT_THRESHOLD ≤ s.redundant_count →
      s.file = bytes ∧ s.buffer = []) ∧
    (∀ (s : KvStore) (k : Key) (v : Value) (fl : Option CompactFault),
      lookupIdx s.log_pointer k = none →
      s.set k v fl = ⟨s.file, s.buffer ++ (KvLog.Set k v).encode,
        (insertIdx s.log_pointer k (s.file.length + s.buffer.length)).1,
        s.redundant_count⟩) ∧
    (∀ (s : KvStore) (k : Key) (fl : Option CompactFault),
      lookupIdx s.log_pointer k = none → s.remove k fl = .error .KeyNotFound) ∧
    (∀ (s : KvStore) (k : Key) (v : Value) (fl : Option CompactFault) (off : Nat),
      lookupIdx s.log_pointer k = some off →
      s.set k v fl = KvStore.increment_redundant ⟨s.file,
        s.buffer ++ (KvLog.Set k v).encode,
        (insertIdx s.log_pointer k (s.file.length + s.buffer.length)).1,
        s.redundant_count⟩ fl) ∧
    (∀ (s : KvStore) (k : Key) (fl : Option CompactFault) (off : Nat),
      lookupIdx s.log_pointer k = some off →
      s.remove k fl = .ok (KvStore.increment_redundant ⟨s.file,
        s.buffer ++ (KvLog.Rm k).encode,
        (removeIdx s.log_pointer k).1, s.redundant_count⟩ fl)) := by
  refine ⟨?_, ?_, ?_, ?_, ?_⟩
  · intro bytes s hopen hth
    unfold KvStore.openStore at hopen
    cases hscan : scanFuel (bytes.length + 1) bytes 0 [] 0 with
    | none =>
      rw [hscan] at hopen
      exact absurd hopen (by simp)
    | some p =>
      rw [hscan] at hopen
      have := Option.some.inj hopen
      rw [← this]
      exact ⟨rfl, rfl⟩
  · intro s k v fl hk
    rw [set_eq]
    have hp : (insertIdx s.log_pointer k (s.file.length + s.buffer.length)).2 = false := by
      rw [insertIdx_snd, hk]
      rfl
    rw [hp, if_neg (by simp)]
  · intro s k fl hk
    exact remove_eq_absent fl (by rw [hk]; simp)
  · intro s k v fl off hk
    rw [set_eq]
    have hp : (insertIdx s.log_pointer k (s.file.length + s.buffer.length)).2 = true := by
      rw [insertIdx_snd, hk]
      rfl
    rw [hp, if_pos rfl]
  · intro s k fl off hk
    have hc : (lookupIdx s.log_pointer k).isSome = true := by rw [hk]; rfl
    have hp : (removeIdx s.log_pointer k).2 = true := by
      rw [removeIdx_snd, hk]
      rfl
    rw [remove_eq_present fl hc, hp, if_pos rfl]

theorem replay_replicate_aux (k : Key) (v : Value) :
    ∀ (m : Nat) (pos q c : Nat),
      replayRecs (List.replicate m (KvLog.Set k v)) pos [(k, q)] c =
        ([(k, if m = 0 then q
              else pos + (m - 1) * (KvLog.Set k v).encode.length)], c + m) := by
  intro m
  induction m with
  | zero =>
    intro pos q c
    simp [replayRecs]
  | succ m ih =>
    intro pos q c
    rw [List.replicate_succ, replayRecs_cons]
    have h0 : applyRecord [(k, q)] (KvLog.Set k v) pos = ([(k, pos)], true) := by
      rw [applyRecord_set]
      simp [insertIdx]
    rw [h0, if_pos rfl, ih (pos + (KvLog.Set k v).encode.length) pos (c + 1)]
    rcases m with _ | m'
    · simp
    · simp only [Nat.succ_ne_zero, if_neg, Nat.add_sub_cancel, Prod.mk.injEq,
        List.cons.injEq, and_true, true_and]
      constructor
      · simp only [if_false]
        ring
      · omega

theorem replay_replicate (k : Key) (v : Value) (m : Nat) :
    replayRecs (List.replicate (m + 1) (KvLog.Set k v)) 0 [] 0 =
      ([(k, m * (KvLog.Set k v).encode.length)], m) := by
  rw [List.replicate_succ, replayRecs_cons]
  have h0 : applyRecord ([] : Index) (KvLog.Set k v) 0 = ([(k, 0)], false) := rfl
  rw [h0]
  simp only [Bool.false_eq_true, if_false]
  rw [replay_replicate_aux k v m (0 + (KvLog.Set k v).encode.length) 0 0]
  rcases m with _ | m'
  · simp
  · simp only [Nat.succ_ne_zero, if_neg, Nat.add_sub_cancel, Prod.mk.injEq,
      List.cons.injEq, and_true, true_and]
    simp only [if_false]
    constructor
    · ring
    · omega

theorem wfAll_replicate {r : KvLog} (m : Nat) (h : r.wf) :
    wfAll (List.replicate m r) := by
  intro x hx
  rw [List.eq_of_mem_replicate hx]
  exact h

theorem claim_c10_witness :
    (⟨encodeAll (List.replicate 1025 (KvLog.Set [7] [8])), [],
      (replayRecs (List.replicate 1025 (KvLog.Set [7] [8])) 0 [] 0).1,
      (replayRecs (List.replicate 1025 (KvLog.Set [7] [8])) 0 [] 0).2⟩ : KvStore).file =
        encodeAll (List.replicate 1025 (KvLog.Set [7] [8])) ∧
    (⟨encodeAll (List.replicate 1025 (KvLog.Set [7] [8])), [],
      (replayRecs (List.replicate 1025 (KvLog.Set [7] [8])) 0 [] 0).1,
      (replayRecs (List.replicate 1025 (KvLog.Set [7] [8])) 0 [] 0).2⟩ : KvStore).buffer = [] :=
  claim_c10_open_never_compacts.1 _ _
    (openStore_encodeAll (List.replicate 1025 (KvLog.Set [7] [8]))
      (wfAll_replicate 1025 (by decide)))
    (by
      have hrep : replayRecs (List.replicate 1025 (KvLog.Set [7] [8])) 0 [] 0 =
          ([([7], 1024 * (KvLog.Set [7] [8]).encode.length)], 1024) := by
        rw [(rfl : (1025 : Nat) = 1024 + 1), replay_replicate]
      simp only [hrep]
      decide)
